import Mathlib

/-!
Verification of the LuaCSS compiler (`lcss.js`).

The development shallowly embeds the compilation pipeline of the source
file: tokenizer, recursive-descent parser (selector resolution, pseudo
handling, value-expression parsing, color constructors), rule flattener and
CSS emitter.  JavaScript strings are modelled through their character lists
(`String` / `List Char`), array indices as `Nat`, JS numbers as exact
rationals (`ℚ`, with `none` standing for `NaN`), and the parser's loops as
fuel-indexed total functions returning `Option` (`none` = fuel exhausted);
a progress theorem shows that fuel linear in the token count never runs
out, which is the code's termination argument.
-/

set_option maxRecDepth 10000

-- ─── Tokens ──────────────────────────────────────────────────────────────

/-- Token kinds, mirroring the `TOKEN` enumeration of the source. -/
inductive TKind where
  | comment
  | str
  | hex
  | number
  | ident
  | punct
  | ws
deriving DecidableEq, Repr

/-- A token `{t, v, unit}`.  Non-number tokens carry `unit = ""`, matching
the JS access `t.unit ?? ''`. -/
structure Tok where
  t : TKind
  v : String
  unit : String := ""
deriving DecidableEq, Repr

-- ─── Character classes used by the tokenizer's regexes ───────────────────

/-- The character class of the JS regex `\s` (ECMAScript WhiteSpace and
LineTerminator characters). -/
def isJsWhitespace (c : Char) : Bool :=
  c.toNat = 9 || c.toNat = 10 || c.toNat = 11 || c.toNat = 12 ||
  c.toNat = 13 || c.toNat = 32 || c.toNat = 160 || c.toNat = 5760 ||
  (8192 ≤ c.toNat && c.toNat ≤ 8202) || c.toNat = 8232 || c.toNat = 8233 ||
  c.toNat = 8239 || c.toNat = 8287 || c.toNat = 12288 || c.toNat = 65279

/-- JS regex `[0-9a-fA-F]`. -/
def isHexDigitChar (c : Char) : Bool :=
  c.isDigit || ('a' ≤ c && c ≤ 'f') || ('A' ≤ c && c ≤ 'F')

/-- JS regex `[0-9.]`, the number-body class. -/
def isNumChar (c : Char) : Bool :=
  c.isDigit || c = '.'

/-- JS regex `[a-zA-Z%]`, the CSS-unit suffix class. -/
def isUnitChar (c : Char) : Bool :=
  c.isAlpha || c = '%'

/-- JS regex `[a-zA-Z_]`, the identifier-start class. -/
def isIdentStartChar (c : Char) : Bool :=
  c.isAlpha || c = '_'

/-- JS regex `[a-zA-Z0-9_-]`, the identifier-continuation class. -/
def isIdentContChar (c : Char) : Bool :=
  c.isAlpha || c.isDigit || c = '_' || c = '-'

/-- The lookahead deciding whether a number token starts at the current
character: a digit, `.` followed by a digit, or a sign followed by a digit
or by `.` then a digit. -/
def numStart (c : Char) (cs : List Char) : Bool :=
  c.isDigit ||
  (c = '.' && (match cs with | d :: _ => d.isDigit | [] => false)) ||
  ((c = '-' || c = '+') &&
    (match cs with
     | d :: rest =>
         d.isDigit || (d = '.' && (match rest with | e :: _ => e.isDigit | [] => false))
     | [] => false))

-- ─── Tokenizer ───────────────────────────────────────────────────────────

/-- The string-scanning loop of the tokenizer, entered after the opening
quote `q`.  A backslash drops itself and keeps the next character verbatim;
when the backslash is the last character, the JS code appends
`src[len]`, i.e. `undefined`, which string-concatenates as `"undefined"`.
Returns the interior text and the characters remaining after the closing
quote (an unterminated string runs to end-of-input). -/
def scanString (q : Char) : List Char → String × List Char
  | [] => ("", [])
  | c :: cs =>
    if c = q then ("", cs)
    else if c = '\\' then
      match cs with
      | [] => ("undefined", [])
      | d :: ds =>
        let r := scanString q ds
        (String.mk [d] ++ r.1, r.2)
    else
      let r := scanString q cs
      (String.mk [c] ++ r.1, r.2)

/-- One step of the tokenizer: given the current character `c` and the rest
of the input `cs`, produce the next token and the remaining characters.
The branch order is that of the source: comment, whitespace, `0x` hex
literal, string, number, identifier, single-character punctuation. -/
def tokStep (c : Char) (cs : List Char) : Tok × List Char :=
  if c = '-' && cs.head? = some '-' then
    (⟨.comment, String.mk (c :: cs.takeWhile (fun d => d ≠ '\n')), ""⟩,
     cs.dropWhile (fun d => d ≠ '\n'))
  else if isJsWhitespace c then
    (⟨.ws, String.mk (c :: cs.takeWhile isJsWhitespace), ""⟩,
     cs.dropWhile isJsWhitespace)
  else if c = '0' && (cs.head? = some 'x' || cs.head? = some 'X') then
    match cs with
    | x :: cs2 =>
      (⟨.hex, String.mk ('0' :: x :: cs2.takeWhile isHexDigitChar), ""⟩,
       cs2.dropWhile isHexDigitChar)
    | [] => (⟨.punct, String.mk [c], ""⟩, cs)
  else if c = '"' || c = Char.ofNat 39 then
    let r := scanString c cs
    (⟨.str, r.1, ""⟩, r.2)
  else if numStart c cs then
    let r2 := cs.dropWhile isNumChar
    (⟨.number, String.mk (c :: cs.takeWhile isNumChar), String.mk (r2.takeWhile isUnitChar)⟩,
     r2.dropWhile isUnitChar)
  else if isIdentStartChar c then
    (⟨.ident, String.mk (c :: cs.takeWhile isIdentContChar), ""⟩,
     cs.dropWhile isIdentContChar)
  else
    (⟨.punct, String.mk [c], ""⟩, cs)

/-- Fuel-indexed tokenizer loop; each step consumes at least one character,
so fuel `length + 1` always suffices (proved below). -/
def tokenizeF : Nat → List Char → Option (List Tok)
  | 0, _ => none
  | _ + 1, [] => some []
  | f + 1, c :: cs =>
    let r := tokStep c cs
    match tokenizeF f r.2 with
    | some ts => some (r.1 :: ts)
    | none => none

/-- `tokenize(src)`: run the tokenizer over the whole source text. -/
def tokenize (src : String) : List Tok :=
  (tokenizeF (src.data.length + 1) src.data).getD []

-- ─── Selector resolver ───────────────────────────────────────────────────

/-- `PSEUDO_CLASS`: pseudo-states mapping to CSS pseudo-classes. -/
def PSEUDO_CLASS : List String :=
  ["hover", "focus", "active", "visited", "disabled", "checked",
   "placeholder", "first_child", "last_child", "nth_child",
   "first_of_type", "last_of_type", "focus_within", "focus_visible",
   "not", "root", "empty", "link", "enabled", "read_only", "read_write"]

/-- `PSEUDO_ELEMENT`: pseudo-elements (rendered with a `::` prefix). -/
def PSEUDO_ELEMENT : List String :=
  ["before", "after", "first_line", "first_letter", "selection", "placeholder"]

/-- `PSEUDO_NAME_MAP`: Lua-style underscore names to CSS hyphenated names. -/
def PSEUDO_NAME_MAP : List (String × String) :=
  [("first_child", "first-child"),
   ("last_child", "last-child"),
   ("nth_child", "nth-child"),
   ("first_of_type", "first-of-type"),
   ("last_of_type", "last-of-type"),
   ("focus_within", "focus-within"),
   ("focus_visible", "focus-visible"),
   ("read_only", "read-only"),
   ("read_write", "read-write"),
   ("first_line", "first-line"),
   ("first_letter", "first-letter")]

/-- `PSEUDO_NAME_MAP` is a plain object literal, so the property read
`PSEUDO_NAME_MAP[name]` falls through to `Object.prototype` when the own
keys miss: for the twelve inherited property names below it yields a
non-`undefined` value, which `??` keeps.  Each entry pairs the inherited
key with the string that value coerces to under concatenation (the
built-in methods stringify as `function NAME() \x7b [native code] \x7d`,
`constructor` is the `Object` constructor function, and the `__proto__`
accessor returns the `Object.prototype` object itself, which coerces to
`[object Object]`). -/
def OBJECT_PROTO_PROPS : List (String × String) :=
  [("constructor", "function Object() \x7b [native code] \x7d"),
   ("hasOwnProperty", "function hasOwnProperty() \x7b [native code] \x7d"),
   ("isPrototypeOf", "function isPrototypeOf() \x7b [native code] \x7d"),
   ("propertyIsEnumerable",
     "function propertyIsEnumerable() \x7b [native code] \x7d"),
   ("toLocaleString", "function toLocaleString() \x7b [native code] \x7d"),
   ("toString", "function toString() \x7b [native code] \x7d"),
   ("valueOf", "function valueOf() \x7b [native code] \x7d"),
   ("__proto__", "[object Object]"),
   ("__defineGetter__", "function __defineGetter__() \x7b [native code] \x7d"),
   ("__defineSetter__", "function __defineSetter__() \x7b [native code] \x7d"),
   ("__lookupGetter__", "function __lookupGetter__() \x7b [native code] \x7d"),
   ("__lookupSetter__", "function __lookupSetter__() \x7b [native code] \x7d")]

/-- `isPseudo(name)`. -/
def isPseudo (name : String) : Bool :=
  PSEUDO_CLASS.contains name || PSEUDO_ELEMENT.contains name

/-- `PSEUDO_NAME_MAP[name] ?? name`: the own entry when present, else the
string-coerced inherited `Object.prototype` property when `name` is one
of those keys, else `name` itself (the only case where the property read
is `undefined` and `??` takes its right operand). -/
def pseudoNameLookup (name : String) : String :=
  (PSEUDO_NAME_MAP.lookup name).getD ((OBJECT_PROTO_PROPS.lookup name).getD name)

/-- `pseudoSelector(parent, name)`: `parent + prefix + cssName`, where
`cssName` is the JS property lookup `PSEUDO_NAME_MAP[name] ?? name`
(including the `Object.prototype` fallthrough) and the prefix is `::` for
pseudo-elements, `:` otherwise. -/
def pseudoSelector (parent name : String) : String :=
  let cssName := pseudoNameLookup name
  let pre := if PSEUDO_ELEMENT.contains name then "::" else ":"
  parent ++ pre ++ cssName

/-- Expansion of a `String.prototype.replace` replacement template for the
regex `/&/g` (which has no capture groups): `$$` yields `$`, `$&` yields
the matched `&`, a `$`-backquote yields the text before the match
(`before`), `$` + apostrophe yields the text after the match (`after`),
and every other character — including `$` followed by anything else — is
literal. -/
def jsExpandTemplate (before after : List Char) : List Char → List Char
  | [] => []
  | c :: rest =>
    if c = '$' then
      match rest with
      | [] => [c]
      | d :: rest2 =>
        if d = '$' then '$' :: jsExpandTemplate before after rest2
        else if d = '&' then '&' :: jsExpandTemplate before after rest2
        else if d = Char.ofNat 96 then before ++ jsExpandTemplate before after rest2
        else if d = Char.ofNat 39 then after ++ jsExpandTemplate before after rest2
        else c :: jsExpandTemplate before after (d :: rest2)
    else c :: jsExpandTemplate before after rest

/-- Scanning loop of `child.replace(/&/g, parent)`: `pre` holds the
characters of `child` already passed (the text before the current match),
`rest` the characters still to scan. -/
def jsReplaceAmpGo (parent : String) (pre : List Char) : List Char → List Char
  | [] => []
  | c :: cs =>
    if c = '&' then
      jsExpandTemplate pre cs parent.data ++ jsReplaceAmpGo parent (pre ++ [c]) cs
    else c :: jsReplaceAmpGo parent (pre ++ [c]) cs

/-- `child.replace(/&/g, parent)` with ECMAScript replacement-template
semantics. -/
def jsReplaceAllAmp (parent child : String) : String :=
  String.mk (jsReplaceAmpGo parent [] child.data)

/-- `resolveSelector(parent, child)`. -/
def resolveSelector (parent child : String) : String :=
  if child.data.contains '&' then jsReplaceAllAmp parent child
  else if child.data.head? = some ':' then parent ++ child
  else parent ++ " " ++ child

/-- Modelled from the spec's words for comparison with `resolveSelector`:
"if `child` contains `&`, replace every `&` with `parent` (literal
substring replacement, all occurrences)"; the other two cases are as in
the code. -/
def specLiteralReplaceAmp (parent : String) : List Char → List Char
  | [] => []
  | c :: cs =>
    if c = '&' then parent.data ++ specLiteralReplaceAmp parent cs
    else c :: specLiteralReplaceAmp parent cs

/-- The claim's version of `resolveSelector`, with literal `&`
substitution. -/
def specResolveSelector (parent child : String) : String :=
  if child.data.contains '&' then String.mk (specLiteralReplaceAmp parent child.data)
  else if child.data.head? = some ':' then parent ++ child
  else parent ++ " " ++ child

-- ─── JS numbers and color constructors ───────────────────────────────────

/-- A JavaScript value pushed into a color-constructor argument array:
either a string (string/hex/identifier/punctuation tokens) or a number
(`Number(t.v)`); `num none` is `NaN`. -/
inductive JsVal where
  | str (s : String)
  | num (q : Option ℚ)
deriving DecidableEq, Repr

/-- Decimal digits to a natural number. -/
def digitsToNat (ds : List Char) : Nat :=
  ds.foldl (fun a c => a * 10 + (c.toNat - 48)) 0

/-- Hexadecimal digits to a natural number. -/
def hexDigitsToNat (ds : List Char) : Nat :=
  ds.foldl
    (fun a c =>
      a * 16 +
        (if c.isDigit then c.toNat - 48
         else if 'a' ≤ c && c ≤ 'f' then c.toNat - 87
         else c.toNat - 55))
    0

/-- Fuel-driven binary logarithm: `natLog2F n n` is `⌊log2 n⌋` for
`n ≥ 1` (each step halves the argument, so fuel `n` always suffices). -/
def natLog2F : Nat → Nat → Nat
  | 0, _ => 0
  | f + 1, n => if 2 ≤ n then natLog2F f (n / 2) + 1 else 0

/-- `⌊log2 q⌋` for a positive rational, from the bit lengths of the
numerator and denominator with a final one-step adjustment. -/
def qLog2 (q : ℚ) : ℤ :=
  let e0 : ℤ :=
    (natLog2F q.num.toNat q.num.toNat : ℤ) - (natLog2F q.den q.den : ℤ)
  if (2 : ℚ) ^ (e0 + 1) ≤ q then e0 + 1
  else if (2 : ℚ) ^ e0 ≤ q then e0
  else e0 - 1

/-- Nearest integer with ties to even (the IEEE-754 default rounding
direction). -/
def roundHalfEvenInt (q : ℚ) : ℤ :=
  let f := ⌊q⌋
  let r := q - (f : ℚ)
  if r < 1 / 2 then f
  else if 1 / 2 < r then f + 1
  else if f % 2 = 0 then f else f + 1

/-- Binary64 rounding of a positive rational: scale the value so its
53-bit significand window `[2^52, 2^53)` sits on the integers (or onto
the fixed `2^-1074` grid below the normal range), round to the nearest
integer with ties to even, and scale back. -/
def fl64abs (q : ℚ) : ℚ :=
  let e := qLog2 q
  let shift : ℤ := if e < -1022 then 1074 else 52 - e
  (roundHalfEvenInt (q * (2 : ℚ) ^ shift) : ℚ) * (2 : ℚ) ^ (-shift)

/-- `fl64 q`: the IEEE-754 binary64 double nearest to the rational `q`
(round to nearest, ties to even), as an exact rational.  Every number a
JavaScript program produces — parsed literals and arithmetic results —
is a binary64 value, so the embedding applies `fl64` wherever the source
creates a fresh number.  Overflow to `Infinity` (magnitude `2^1024` and
beyond, e.g. a literal with more than 309 integer digits) and `NaN`
propagation have no counterpart in the rational carrier and are not
modelled; every value the claims touch lies far inside the normal
range. -/
def fl64 (q : ℚ) : ℚ :=
  if q = 0 then 0
  else if q < 0 then -fl64abs (-q)
  else fl64abs q

/-- `Number(v)` on the text of a number token (characters drawn from
sign/digits/dots): a single optional leading sign, digits with at most one
dot, the exact decimal value then rounded to the nearest binary64 double
as `Number` yields.  Returns `none` (`NaN`) for malformed text such as
`1.2.3`. -/
def jsNumber (s : String) : Option ℚ :=
  let p : ℚ × List Char :=
    match s.data with
    | c :: rest =>
      if c = '+' then (1, rest) else if c = '-' then (-1, rest) else (1, s.data)
    | [] => (1, [])
  let ip := p.2.takeWhile Char.isDigit
  let r := p.2.dropWhile Char.isDigit
  match r with
  | [] => if ip = [] then none else some (fl64 (p.1 * digitsToNat ip))
  | c :: fracRest =>
    if c = '.' then
      let fp := fracRest.takeWhile Char.isDigit
      let r2 := fracRest.dropWhile Char.isDigit
      if r2 ≠ [] then none
      else if ip = [] ∧ fp = [] then none
      else some (fl64 (p.1 *
        ((digitsToNat ip : ℚ) + (digitsToNat fp : ℚ) / (10 : ℚ) ^ fp.length)))
    else none

/-- The unsigned decimal body of a ToNumber string:
`digits [. digits] [(e|E) [sign] digits]` — at least one mantissa digit,
at least one exponent digit when `e` is present, nothing left over.
Returns the exact rational value (the caller applies the sign and the
binary64 rounding). -/
def jsStrDecimalBody (l : List Char) : Option ℚ :=
  let ip := l.takeWhile Char.isDigit
  let r := l.dropWhile Char.isDigit
  let mant : Option (ℚ × List Char) :=
    match r with
    | '.' :: rest =>
      let fp := rest.takeWhile Char.isDigit
      let r2 := rest.dropWhile Char.isDigit
      if ip = [] ∧ fp = [] then none
      else some ((digitsToNat ip : ℚ) + (digitsToNat fp : ℚ) / (10 : ℚ) ^ fp.length, r2)
    | _ => if ip = [] then none else some ((digitsToNat ip : ℚ), r)
  match mant with
  | none => none
  | some (m, rest) =>
    match rest with
    | [] => some m
    | e :: er =>
      if e = 'e' ∨ e = 'E' then
        let sgn : ℤ := match er.head? with | some '-' => -1 | _ => 1
        let eb := match er with
          | '+' :: tl => tl
          | '-' :: tl => tl
          | _ => er
        if eb ≠ [] ∧ eb.all Char.isDigit then
          some (m * (10 : ℚ) ^ (sgn * (digitsToNat eb : ℤ)))
        else none
      else none

/-- An optionally signed decimal literal, rounded to binary64. -/
def jsStrSigned (l : List Char) : Option ℚ :=
  match l with
  | '+' :: rest => (jsStrDecimalBody rest).map fl64
  | '-' :: rest => (jsStrDecimalBody rest).map (fun q => fl64 (-q))
  | _ => (jsStrDecimalBody l).map fl64

/-- `Number(s)` (ToNumber) on a general string: trimmed-empty is `0`;
unsigned `0x`/`0X` hex, `0b`/`0B` binary and `0o`/`0O` octal integer
literals; otherwise an optionally signed decimal literal with optional
fraction and exponent, all rounded to binary64.  Anything else is `NaN`
(`none`).  The `Infinity` forms have no counterpart in the rational
carrier and are not modelled. -/
def jsStringToNumber (s : String) : Option ℚ :=
  let t := ((s.data.dropWhile isJsWhitespace).reverse.dropWhile isJsWhitespace).reverse
  match t with
  | [] => some 0
  | '0' :: x :: rest =>
    if x = 'x' || x = 'X' then
      if rest ≠ [] ∧ rest.all isHexDigitChar then
        some (fl64 (hexDigitsToNat rest))
      else none
    else if x = 'b' || x = 'B' then
      if rest ≠ [] ∧ rest.all (fun c => c == '0' || c == '1') then
        some (fl64 (rest.foldl (fun a c => a * 2 + (c.toNat - 48)) 0 : ℚ))
      else none
    else if x = 'o' || x = 'O' then
      if rest ≠ [] ∧ rest.all (fun c => c.isDigit && c.toNat ≤ 55) then
        some (fl64 (rest.foldl (fun a c => a * 8 + (c.toNat - 48)) 0 : ℚ))
      else none
    else jsStrSigned t
  | _ => jsStrSigned t

/-- `Math.round` on a (finite) JS number: round half toward positive
infinity. -/
def jsRound (q : ℚ) : ℤ := ⌊q + 1 / 2⌋

/-- `(+x || 0)`: coerce to number, then replace the falsy numbers `NaN`
and `0` by `0`; absent argument (`undefined`) also yields `0`. -/
def jsToNumOr0 : Option JsVal → ℚ
  | none => 0
  | some (.num none) => 0
  | some (.num (some q)) => q
  | some (.str s) => (jsStringToNumber s).getD 0

/-- The decimal exponent position of a positive rational: the `n` with
`10^(n-1) ≤ d < 10^n`, by fuel-bounded search from 0 (finite binary64
magnitudes span `10^-324` to `10^309`, so fuel 1400 covers the range). -/
def decExpF : Nat → ℤ → ℚ → ℤ
  | 0, n, _ => n
  | f + 1, n, d =>
    if d < (10 : ℚ) ^ n then
      if (10 : ℚ) ^ (n - 1) ≤ d then n else decExpF f (n - 1) d
    else decExpF f (n + 1) d

/-- Digit selection of `Number::toString` (radix 10): the smallest count
`k` of significant digits and the `k`-digit integer `s` nearest to
`d / 10^(n-k)` (ties to even) such that the mathematical value
`s * 10^(n-k)` reads back — rounded to the nearest binary64 value — as
exactly `d`; the result carries the decimal position as well, bumped by
one when the selected representative is the power `10^k` itself (a value
just below a power of ten whose shortest read-back is that power, e.g.
the double nearest `1e-7`).  Seventeen significant digits always
round-trip a binary64 value, so the search is bounded. -/
def pickDigitsF : Nat → Nat → ℚ → ℤ → Option (Nat × ℤ × ℤ)
  | 0, _, _, _ => none
  | fuel + 1, k, d, n =>
    let t := d * (10 : ℚ) ^ ((k : ℤ) - n)
    let fl := ⌊t⌋
    let r := t - (fl : ℚ)
    let cands : List ℤ :=
      if r < 1 / 2 then [fl, fl + 1]
      else if 1 / 2 < r then [fl + 1, fl]
      else if fl % 2 = 0 then [fl, fl + 1]
      else [fl + 1, fl]
    match cands.find? (fun (s : ℤ) =>
        ((10 : ℚ) ^ ((k : ℤ) - 1) ≤ (s : ℚ) && (s : ℚ) ≤ (10 : ℚ) ^ (k : ℤ)) &&
          fl64 ((s : ℚ) * (10 : ℚ) ^ (n - (k : ℤ))) == d) with
    | some s =>
      if (s : ℚ) = (10 : ℚ) ^ (k : ℤ) then some (1, 1, n + 1) else some (k, s, n)
    | none => pickDigitsF fuel (k + 1) d n

/-- The fixed-versus-exponent layout rules of `Number::toString`: `s` the
significant digits, `n` the decimal exponent position, `k` the digit
count. -/
def jsFormatDigits (s : ℤ) (n : ℤ) (k : Nat) : String :=
  let ds := (toString s.toNat).data
  if (k : ℤ) ≤ n ∧ n ≤ 21 then
    String.mk ds ++ String.mk (List.replicate (n - k).toNat '0')
  else if 0 < n ∧ n ≤ 21 then
    String.mk (ds.take n.toNat) ++ "." ++ String.mk (ds.drop n.toNat)
  else if -6 < n ∧ n ≤ 0 then
    "0." ++ String.mk (List.replicate (-n).toNat '0') ++ String.mk ds
  else
    let m := n - 1
    let tail := "e" ++ (if m < 0 then "-" else "+") ++ toString m.natAbs
    if k = 1 then String.mk ds ++ tail
    else String.mk (ds.take 1) ++ "." ++ String.mk (ds.drop 1) ++ tail

/-- String conversion of a positive binary64 value: shortest round-trip
digit string, then the spec's layout (the fuel-exhaustion fallback of 17
digits is unreachable for genuine binary64 values). -/
def jsDoubleToStringPos (d : ℚ) : String :=
  let n := decExpF 1400 0 d
  match pickDigitsF 17 1 d n with
  | some (k, s, n2) => jsFormatDigits s n2 k
  | none => jsFormatDigits (roundHalfEvenInt (d * (10 : ℚ) ^ ((17 : ℤ) - n))) n 17

/-- `String(d)` for a finite binary64 number (`Number::toString`, radix
10): the shortest digit string that reads back as exactly `d`, with the
spec's fixed-versus-exponent layout; zero prints as `0`, negative values
get a leading `-`. -/
def jsDoubleToString (d : ℚ) : String :=
  if d = 0 then "0"
  else if d < 0 then "-" ++ jsDoubleToStringPos (-d)
  else jsDoubleToStringPos d

/-- String coercion of an argument value (template-literal / `String(...)`
/ `join` semantics). -/
def jsValToString : JsVal → String
  | .str s => s
  | .num none => "NaN"
  | .num (some q) => jsDoubleToString q

/-- `args[i]` interpolated into a template literal: `undefined` prints as
`"undefined"`. -/
def argTemplate (args : List JsVal) (i : Nat) : String :=
  match args.get? i with
  | some v => jsValToString v
  | none => "undefined"

/-- The `switch (fn)` of `parseColor`: the rendered color string together
with the diagnostics the branch records (only the unknown-function branch
records one).  In the `color3` branch the product `(+args[i] || 0) * 255`
is a binary64 multiplication, so the exact product is rounded to the
nearest double (`fl64`) before `Math.round` applies. -/
def applyColorFn (fn : String) (args : List JsVal) : String × List String :=
  if fn = "hex" then
    let raw := match args.get? 0 with
      | some v => jsValToString v
      | none => "000000"
    (if raw.data.head? = some '#' then raw else "#" ++ raw, [])
  else if fn = "rgb" then
    ("rgb(" ++ String.intercalate ", " ((args.take 3).map jsValToString) ++ ")", [])
  else if fn = "rgba" then
    ("rgba(" ++ String.intercalate ", " ((args.take 4).map jsValToString) ++ ")", [])
  else if fn = "hsl" then
    ("hsl(" ++ argTemplate args 0 ++ ", " ++ argTemplate args 1 ++ "%, " ++
       argTemplate args 2 ++ "%)", [])
  else if fn = "hsla" then
    ("hsla(" ++ argTemplate args 0 ++ ", " ++ argTemplate args 1 ++ "%, " ++
       argTemplate args 2 ++ "%, " ++ argTemplate args 3 ++ ")", [])
  else if fn = "color3" then
    let r := jsRound (fl64 (jsToNumOr0 (args.get? 0) * 255))
    let g := jsRound (fl64 (jsToNumOr0 (args.get? 1) * 255))
    let b := jsRound (fl64 (jsToNumOr0 (args.get? 2) * 255))
    ("rgb(" ++ toString r ++ ", " ++ toString g ++ ", " ++ toString b ++ ")", [])
  else
    ("#000000", ["Unknown color function: color." ++ fn])

-- ─── Rule tree, flattener, emitter ───────────────────────────────────────

/-- A declaration `{prop, value}`. -/
structure Decl where
  prop : String
  value : String
deriving DecidableEq, Repr

/-- A flat rule `{selector, props}` ready for emission. -/
structure FlatRule where
  selector : String
  props : List Decl
deriving DecidableEq, Repr

/-- The forest of rule nodes `{selector, props, children}` built by the
block parser: `nil` is the empty child array, `node` a child followed by
its siblings (`rest`). -/
inductive RuleForest where
  | nil : RuleForest
  | node (selector : String) (props : List Decl) (children : RuleForest)
      (rest : RuleForest) : RuleForest
deriving DecidableEq, Repr

/-- Appending to a child array (`children.push(...)` builds the array in
order). -/
def forestAppend : RuleForest → RuleForest → RuleForest
  | .nil, r => r
  | .node s p c rest, r => .node s p c (forestAppend rest r)

/-- `collectChildren(children, rules)`: depth-first walk pushing a flat
rule for every node with non-empty `props`, then descending into its
children (only when the child array is non-empty, as the JS guard
`child.children?.length > 0` does), then continuing with the siblings. -/
def collectChildren : RuleForest → List FlatRule → List FlatRule
  | .nil, rules => rules
  | .node sel props children rest, rules =>
    let rules1 := if props ≠ [] then rules ++ [⟨sel, props⟩] else rules
    let rules2 := if children ≠ .nil then collectChildren children rules1 else rules1
    collectChildren rest rules2

/-- Modelled from the spec's words for comparison with `collectChildren`:
the depth-first pre-order listing of the forest, keeping exactly the nodes
with a non-empty declaration sequence. -/
def preorderFlatten : RuleForest → List FlatRule
  | .nil => []
  | .node sel props children rest =>
    (if props ≠ [] then [(⟨sel, props⟩ : FlatRule)] else []) ++
      preorderFlatten children ++ preorderFlatten rest

/-- `emit(rules)`: render every rule as `selector {\n  prop: value;\n...}`
joined by blank lines. -/
def emit (rules : List FlatRule) : String :=
  String.intercalate "\n\n"
    (rules.map (fun rule =>
      rule.selector ++ " \x7b\n" ++
        String.intercalate "\n"
          (rule.props.map (fun d => "  " ++ d.prop ++ ": " ++ d.value ++ ";")) ++
        "\n\x7d"))

-- ─── Parser state and primitives ─────────────────────────────────────────

/-- Parser state: the filtered token array, the cursor `pos`, and the
accumulated diagnostics `errors`. -/
structure PState where
  tokens : List Tok
  pos : Nat
  errors : List String
deriving DecidableEq, Repr

/-- `this.peek()`. -/
def peekTok (st : PState) : Option Tok := st.tokens.get? st.pos

/-- `this.peek(1)`. -/
def peekTok1 (st : PState) : Option Tok := st.tokens.get? (st.pos + 1)

/-- `this.eof()`. -/
def eofP (st : PState) : Bool := st.tokens.length ≤ st.pos

/-- `this.errors.push(msg)`. -/
def pushErr (st : PState) (msg : String) : PState :=
  ⟨st.tokens, st.pos, st.errors ++ [msg]⟩

/-- `this.eat()`: return the token under the cursor (if any) and advance
the cursor unconditionally. -/
def eatTok (st : PState) : Option Tok × PState :=
  (st.tokens.get? st.pos, ⟨st.tokens, st.pos + 1, st.errors⟩)

/-- The diagnostic text of `expect`. -/
def expectMsg (val got : String) (pos : Nat) : String :=
  "Expected '" ++ val ++ "' but got '" ++ got ++ "' (pos " ++ toString pos ++ ")"

/-- `this.expect(val)`: eat the token if its `v` equals `val`, otherwise
record a diagnostic and do not advance. -/
def expectTok (val : String) (st : PState) : Option Tok × PState :=
  match st.tokens.get? st.pos with
  | some t =>
    if t.v = val then (some t, ⟨st.tokens, st.pos + 1, st.errors⟩)
    else (none, pushErr st (expectMsg val t.v st.pos))
  | none => (none, pushErr st (expectMsg val "EOF" st.pos))

/-- `key.replace(/_/g, '-')` (the replacement has no `$` escapes, so it is
plain global substitution). -/
def jsHyphenate (key : String) : String :=
  String.mk (key.data.map (fun c => if c = '_' then '-' else c))

/-- JS `padStart(n, c)`. -/
def jsPadStart (s : String) (n : Nat) (c : Char) : String :=
  if n ≤ s.data.length then s
  else String.mk (List.replicate (n - s.data.length) c ++ s.data)

/-- `tokenToValuePiece(t)`: render one token of a value expression. -/
def tokenToValuePiece : Option Tok → String
  | none => ""
  | some t =>
    if t.t = .str then "\"" ++ t.v ++ "\""
    else if t.t = .number then t.v ++ t.unit
    else if t.t = .hex then "#" ++ jsPadStart (String.mk (t.v.data.drop 2)) 6 '0'
    else t.v

/-- Word-like token kinds (identifier / number / string / hex). -/
def wordLike (t : Tok) : Bool :=
  t.t = .ident || t.t = .number || t.t = .str || t.t = .hex

/-- `this.shouldStopValue(depth)`. -/
def shouldStopValue (st : PState) (paren brack brace : Nat) : Bool :=
  match peekTok st with
  | none => true
  | some t =>
    if paren = 0 && brack = 0 && brace = 0 then
      if t.v = "," || t.v = "\x7d" || t.v = "end" then true
      else if t.t = .ident && ((peekTok1 st).map Tok.v = some "=") then true
      else false
    else false

/-- JS `val.endsWith(' ')`. -/
def jsEndsWithSpace (s : String) : Bool := s.data.getLast? = some ' '

/-- JS `val.trim()`. -/
def jsTrim (s : String) : String :=
  String.mk (((s.data.dropWhile isJsWhitespace).reverse.dropWhile isJsWhitespace).reverse)

/-- The argument value pushed by the argument-collection loop of
`parseColor` for one token. -/
def toJsVal (t : Tok) : JsVal :=
  if t.t = .str then .str t.v
  else if t.t = .number then .num (jsNumber t.v)
  else if t.t = .hex then .str t.v
  else .str t.v

/-- `if (this.peek()?.v === ',') this.eat();` — the optional trailing
comma after an entry. -/
def eatComma (st : PState) : PState :=
  match peekTok st with
  | some t => if t.v = "," then (eatTok st).2 else st
  | none => st

-- ─── parseColor ──────────────────────────────────────────────────────────

/-- Argument-collection loop of `parseColor`: consume tokens up to the
closing `)` (or end of input), skipping literal commas and converting each
other token to a `JsVal`. -/
def parseColorArgsF : Nat → List JsVal → PState → Option (List JsVal × PState)
  | 0, _, _ => none
  | f + 1, args, st =>
    if eofP st then some (args, st)
    else
      match peekTok st with
      | none => some (args, st)
      | some t =>
        if t.v = ")" then some (args, st)
        else
          let st1 := (eatTok st).2
          let args1 := if t.v = "," then args else args ++ [toJsVal t]
          parseColorArgsF f args1 st1

/-- `parseColor()`: eat `color`, expect `.`, eat the function name, expect
`(`, collect the arguments, expect `)`, and dispatch on the function
name. -/
def parseColorF (fuel : Nat) (st : PState) : Option (String × PState) :=
  let st1 := (eatTok st).2
  let st2 := (expectTok "." st1).2
  let e3 := eatTok st2
  let fn := match e3.1 with | some t => t.v | none => ""
  let st4 := (expectTok "(" e3.2).2
  match parseColorArgsF fuel [] st4 with
  | none => none
  | some (args, st5) =>
    let st6 := (expectTok ")" st5).2
    let res := applyColorFn fn args
    some (res.1, ⟨st6.tokens, st6.pos, st6.errors ++ res.2⟩)

-- ─── parseValue ──────────────────────────────────────────────────────────

/-- General value-consumption loop of `parseValue`: bracket-depth counters
for `(`, `[`, `{` (`Math.max(0, d - 1)` is truncated `Nat` subtraction),
and the spacing / math-operator reconstruction rules of the source.  The
token under the cursor is matched before the stop test; this changes
nothing, since `shouldStopValue` answers true whenever `peek` is
exhausted, and `peek` has no side effect. -/
def parseValueLoopF : Nat → Nat → Nat → Nat → String → Option Tok → PState →
    Option (String × PState)
  | 0, _, _, _, _, _, _ => none
  | f + 1, paren, brack, brace, val, prev, st =>
    match peekTok st with
    | none => some (val, st)
    | some n =>
      if eofP st || shouldStopValue st paren brack brace then some (val, st)
      else
        let piece := tokenToValuePiece (some n)
        let prevPiece := tokenToValuePiece prev
        let next := peekTok1 st
        let nextIsWordLike := wordLike n
        let prevIsWordLike := match prev with | some p => wordLike p | none => false
        let prevCanMath := prev.isSome && (prevIsWordLike || prevPiece = ")" || prevPiece = "]")
        let nextCanMath := match next with
          | some u => wordLike u || u.v = "("
          | none => false
        let isMathOperator := (piece = "+" || piece = "-") && prevCanMath && nextCanMath
        let needsSpace := prev.isSome &&
          ((prevIsWordLike && nextIsWordLike) || (prevPiece = ")" && nextIsWordLike))
        let val2 :=
          if isMathOperator then
            let v1 := if val ≠ "" ∧ ¬ jsEndsWithSpace val then val ++ " " else val
            let v2 := v1 ++ piece
            match next with
            | some u =>
              if u.v ≠ ")" ∧ u.v ≠ "," ∧ u.v ≠ "\x7d" ∧ u.v ≠ "end" then v2 ++ " " else v2
            | none => v2
          else (if needsSpace then val ++ " " else val) ++ piece
        let paren2 := if n.v = "(" then paren + 1 else if n.v = ")" then paren - 1 else paren
        let brack2 := if n.v = "[" then brack + 1 else if n.v = "]" then brack - 1 else brack
        let brace2 := if n.v = "\x7b" then brace + 1 else if n.v = "\x7d" then brace - 1 else brace
        parseValueLoopF f paren2 brack2 brace2 val2 (some n) ((eatTok st).2)

/-- `parseValue()`: the color-call special form, the short-circuits to an
empty value, and otherwise the trimmed output of the consumption loop. -/
def parseValueF (fuel : Nat) (st : PState) : Option (String × PState) :=
  match peekTok st with
  | none => some ("", st)
  | some t =>
    if t.t = .ident && t.v = "color" && ((peekTok1 st).map Tok.v = some ".") then
      parseColorF fuel st
    else if t.t = .ident &&
        (((peekTok1 st).map Tok.v = some "=") || ((peekTok1 st).map Tok.v = some "\x7b")) then
      some ("", st)
    else if t.t = .ident && (t.v = "end" || t.v = "function") then
      some ("", st)
    else
      match parseValueLoopF fuel 0 0 0 "" none st with
      | some r => some (jsTrim r.1, r.2)
      | none => none

-- ─── parseFunctionBlock ──────────────────────────────────────────────────

/-- Entry loop of `parseFunctionBlock`: `key = value` pairs until `end`
(or end of input), skipping non-identifier tokens. -/
def parseFnLoopF : Nat → List Decl → PState → Option (List Decl × PState)
  | 0, _, _ => none
  | f + 1, props, st =>
    if eofP st then some (props, st)
    else
      match peekTok st with
      | none => some (props, st)
      | some t =>
        if t.v = "end" then some (props, st)
        else if t.t ≠ TKind.ident then parseFnLoopF f props ((eatTok st).2)
        else
          let key := t.v
          let st1 := (eatTok st).2
          if ((peekTok st1).map Tok.v ≠ some "=") then parseFnLoopF f props (eatComma st1)
          else
            let st2 := (eatTok st1).2
            match parseValueF (f + 1) st2 with
            | none => none
            | some (value, st3) =>
              let props1 := if value ≠ "" then props ++ [(⟨jsHyphenate key, value⟩ : Decl)] else props
              parseFnLoopF f props1 (eatComma st3)

/-- `parseFunctionBlock()`: `function ( )`, the entry loop, then `end`. -/
def parseFunctionBlockF (fuel : Nat) (st : PState) : Option (List Decl × PState) :=
  let st1 := (expectTok "function" st).2
  let st2 := (expectTok "(" st1).2
  let st3 := (expectTok ")" st2).2
  match parseFnLoopF fuel [] st3 with
  | none => none
  | some (props, st4) => some (props, (expectTok "end" st4).2)

/-- `let sel = ''; if (this.peek()?.t === TOKEN.STRING) sel = this.eat().v;`
— the optional string selector after `[`. -/
def scanSelString (st : PState) : String × PState :=
  match peekTok st with
  | some u => if u.t = TKind.str then (u.v, (eatTok st).2) else ("", st)
  | none => ("", st)

-- ─── parseBlock ──────────────────────────────────────────────────────────

/-- Entry loop of `parseBlock` over a `{ ... }` body.  A nested block
(`["sel"] = { ... }` or `ident = { ... }`) is parsed by the same function:
since the guard has just checked that the next token is `{`, the inner
`expect('{')` is exactly an `eat`, followed by the inner loop and
`expect('}')`. -/
def parseBlockLoopF : Nat → String → List Decl → RuleForest → PState →
    Option (List Decl × RuleForest × PState)
  | 0, _, _, _, _ => none
  | f + 1, sel, props, children, st =>
    if eofP st || ((peekTok st).map Tok.v = some "\x7d") then some (props, children, st)
    else
      match peekTok st with
      | none => some (props, children, st)
      | some t =>
        if t.v = "[" then
          let st1 := (eatTok st).2
          let selp := scanSelString st1
          let st3 := (expectTok "]" selp.2).2
          let st4 := (expectTok "=" st3).2
          if ((peekTok st4).map Tok.v = some "\x7b") then
            let childSel := resolveSelector sel selp.1
            let st5 := (eatTok st4).2
            match parseBlockLoopF f childSel [] .nil st5 with
            | none => none
            | some (cprops, cchildren, st6) =>
              let st7 := (expectTok "\x7d" st6).2
              let children1 := forestAppend children (.node childSel cprops cchildren .nil)
              parseBlockLoopF f sel props children1 (eatComma st7)
          else parseBlockLoopF f sel props children (eatComma st4)
        else if t.t ≠ TKind.ident then parseBlockLoopF f sel props children ((eatTok st).2)
        else
          let key := t.v
          let st1 := (eatTok st).2
          if ((peekTok st1).map Tok.v ≠ some "=") then
            parseBlockLoopF f sel props children (eatComma st1)
          else
            let st2 := (eatTok st1).2
            if isPseudo key && ((peekTok st2).map Tok.v = some "function") then
              match parseFunctionBlockF (f + 1) st2 with
              | none => none
              | some (fnProps, st3) =>
                let children1 :=
                  forestAppend children (.node (pseudoSelector sel key) fnProps .nil .nil)
                parseBlockLoopF f sel props children1 (eatComma st3)
            else if ((peekTok st2).map Tok.v = some "\x7b") then
              let childSel := resolveSelector sel (jsHyphenate key)
              let st3 := (eatTok st2).2
              match parseBlockLoopF f childSel [] .nil st3 with
              | none => none
              | some (cprops, cchildren, st4) =>
                let st5 := (expectTok "\x7d" st4).2
                let children1 := forestAppend children (.node childSel cprops cchildren .nil)
                parseBlockLoopF f sel props children1 (eatComma st5)
            else
              match parseValueF (f + 1) st2 with
              | none => none
              | some (value, st3) =>
                let props1 :=
                  if value ≠ "" then props ++ [(⟨jsHyphenate key, value⟩ : Decl)] else props
                parseBlockLoopF f sel props1 children (eatComma st3)

/-- `parseBlock(selectorPath)`: `expect('{')`, the entry loop, then
`expect('}')`. -/
def parseBlockF (fuel : Nat) (sel : String) (st : PState) :
    Option (List Decl × RuleForest × PState) :=
  let st1 := (expectTok "\x7b" st).2
  match parseBlockLoopF fuel sel [] .nil st1 with
  | none => none
  | some (props, children, st2) => some (props, children, (expectTok "\x7d" st2).2)

-- ─── Top-level parse and the public API ──────────────────────────────────

/-- The top-level `parse()` loop: read a selector (identifier or bracketed
string), require `=` and `{`, parse the block, and flatten its result into
the running rule list; any other shape skips a token and continues. -/
def parseTopF : Nat → List FlatRule → PState → Option (List FlatRule × PState)
  | 0, _, _ => none
  | f + 1, rules, st =>
    if eofP st then some (rules, st)
    else
      match peekTok st with
      | none => some (rules, st)
      | some t =>
        let selp : Option String × PState :=
          if t.t = .ident then (some t.v, (eatTok st).2)
          else if t.v = "[" then
            let s2 := scanSelString ((eatTok st).2)
            (some s2.1, (expectTok "]" s2.2).2)
          else (none, (eatTok st).2)
        match selp.1 with
        | none => parseTopF f rules selp.2
        | some selector =>
          if ((peekTok selp.2).map Tok.v ≠ some "=") then parseTopF f rules selp.2
          else
            let stB := (eatTok selp.2).2
            if ((peekTok stB).map Tok.v ≠ some "\x7b") then parseTopF f rules stB
            else
              match parseBlockF (f + 1) selector stB with
              | none => none
              | some (props, children, stC) =>
                let rules1 :=
                  if props ≠ [] then rules ++ [(⟨selector, props⟩ : FlatRule)] else rules
                let rules2 := collectChildren children rules1
                parseTopF f rules2 stC

/-- The filtered token array of `new Parser(src)` (whitespace and comments
dropped). -/
def parserTokens (src : String) : List Tok :=
  (tokenize src).filter (fun t => t.t != TKind.ws && t.t != TKind.comment)

/-- The initial parser state. -/
def initPState (src : String) : PState := ⟨parserTokens src, 0, []⟩

/-- The fuel the driver hands the parser: one more than the token count
(each loop iteration of the parser consumes at least one token). -/
def compileFuel (src : String) : Nat := (parserTokens src).length + 1

/-- `parser.parse()` together with the final parser state. -/
def parseResult (src : String) : Option (List FlatRule × PState) :=
  parseTopF (compileFuel src) [] (initPState src)

/-- The flat rule list produced by parsing `src`. -/
def parsedRules (src : String) : List FlatRule :=
  match parseResult src with
  | some (r, _) => r
  | none => []

/-- The diagnostics accumulated while parsing `src`. -/
def parsedErrors (src : String) : List String :=
  match parseResult src with
  | some (_, st) => st.errors
  | none => []

/-- `compileLuaCSS(src)`: `css` is `null` (`none`) exactly when there are
diagnostics and no rules; otherwise the emitted stylesheet (the empty
string for an empty rule list).  The `none` fallback is unreachable: the
progress theorem below shows the fuel never runs out. -/
def compileLuaCSS (src : String) : Option String × List String :=
  match parseResult src with
  | some (rules, st) =>
    if st.errors ≠ [] ∧ rules = [] then (none, st.errors)
    else (some (emit rules), st.errors)
  | none => (none, [])

-- ─── Helper lemmas: flattening ───────────────────────────────────────────

theorem collectChildren_eq (cs : RuleForest) :
    ∀ rules, collectChildren cs rules = rules ++ preorderFlatten cs := by
  induction cs with
  | nil => intro rules; simp [collectChildren, preorderFlatten]
  | node sel props children rest ihc ihr =>
    intro rules
    simp only [collectChildren, preorderFlatten]
    by_cases hc : children = RuleForest.nil
    · subst hc
      by_cases hp : props = [] <;>
        simp [hp, ihr, preorderFlatten, List.append_assoc]
    · by_cases hp : props = [] <;>
        simp [hp, hc, ihc, ihr, List.append_assoc]

theorem preorderFlatten_props_ne (cs : RuleForest) :
    ∀ r ∈ preorderFlatten cs, r.props ≠ [] := by
  induction cs with
  | nil => simp [preorderFlatten]
  | node sel props children rest ihc ihr =>
    intro r hr
    simp only [preorderFlatten, List.mem_append] at hr
    rcases hr with (hr | hr) | hr
    · by_cases hp : props = []
      · simp [hp] at hr
      · simp [hp] at hr; subst hr; exact hp
    · exact ihc r hr
    · exact ihr r hr

-- ─── Helper lemmas: JS replace template ──────────────────────────────────

theorem jsExpandTemplate_no_dollar (before after : List Char) :
    ∀ l : List Char, '$' ∉ l → jsExpandTemplate before after l = l := by
  intro l
  induction l with
  | nil => intro _; rfl
  | cons c rest ih =>
    intro h
    have hc : c ≠ '$' := by intro hc; exact h (hc ▸ List.mem_cons_self c rest)
    have hr : '$' ∉ rest := fun hm => h (List.mem_cons_of_mem c hm)
    rw [jsExpandTemplate.eq_def]
    simp only [if_neg hc]
    rw [ih hr]

theorem jsReplaceAmpGo_no_dollar (parent : String) (h : '$' ∉ parent.data) :
    ∀ (rest pre : List Char),
      jsReplaceAmpGo parent pre rest = specLiteralReplaceAmp parent rest := by
  intro rest
  induction rest with
  | nil => intro pre; rfl
  | cons c cs ih =>
    intro pre
    by_cases hc : c = '&'
    · simp [jsReplaceAmpGo, specLiteralReplaceAmp, hc,
        jsExpandTemplate_no_dollar _ _ _ h, ih]
    · simp [jsReplaceAmpGo, specLiteralReplaceAmp, hc, ih]

-- ─── Claim theorems (functional fragments) ───────────────────────────────

/-- C2: compiling
`body = { opacity = 0.8, background = color.hex("#fff") }` produces
exactly the stylesheet `body {\n  opacity: 0.8;\n  background: #fff;\n}`
together with an empty diagnostics list. -/
theorem compile_end_to_end_example :
    compileLuaCSS "body = \x7b opacity = 0.8, background = color.hex(\"#fff\") \x7d" =
      (some "body \x7b\n  opacity: 0.8;\n  background: #fff;\n\x7d", []) := by
  decide

/-- C3 (counterexample): the code never lower-cases the hex digits of a
bare `0x` literal — `tokenToValuePiece` renders `0xA1B2C3` as `#A1B2C3`,
not `#a1b2c3`, and `0xFFF` as `#000FFF`, not `#000fff`, contradicting the
claimed rendering. -/
theorem hex_render_not_lowercased :
    tokenToValuePiece (some ⟨TKind.hex, "0xA1B2C3", ""⟩) = "#A1B2C3" ∧
    tokenToValuePiece (some ⟨TKind.hex, "0xA1B2C3", ""⟩) ≠ "#a1b2c3" ∧
    tokenToValuePiece (some ⟨TKind.hex, "0xFFF", ""⟩) = "#000FFF" ∧
    tokenToValuePiece (some ⟨TKind.hex, "0xFFF", ""⟩) ≠ "#000fff" := by
  decide

/-- C3 (amended): a bare hex literal `0x` followed by hex digits renders
as `#` followed by the digits verbatim (case preserved), left-padded with
`0` to 6 characters; `0xA1B2C3` renders `#A1B2C3`, `0xFFF` renders
`#000FFF`, and lower-case input `0xfff` renders `#000fff`. -/
theorem hex_render_preserves_case :
    (∀ ds : String,
        tokenToValuePiece (some ⟨TKind.hex, "0x" ++ ds, ""⟩) = "#" ++ jsPadStart ds 6 '0') ∧
    tokenToValuePiece (some ⟨TKind.hex, "0xA1B2C3", ""⟩) = "#A1B2C3" ∧
    tokenToValuePiece (some ⟨TKind.hex, "0xFFF", ""⟩) = "#000FFF" ∧
    tokenToValuePiece (some ⟨TKind.hex, "0xfff", ""⟩) = "#000fff" := by
  refine ⟨fun ds => ?_, by decide, by decide, by decide⟩
  obtain ⟨l⟩ := ds
  simp [tokenToValuePiece, String.data_append]

/-- C4: flattening is the depth-first pre-order walk of the rule-node
forest — running `collectChildren` on a forest appends to the rule list
exactly the pre-order node listing filtered to the nodes with a non-empty
declaration sequence, so a node contributes iff its declarations are
non-empty, nodes without declarations still have all children visited,
and a parent's rule precedes all rules of its nested children. -/
theorem collectChildren_preorder_filter (cs : RuleForest) (rules : List FlatRule) :
    collectChildren cs rules = rules ++ preorderFlatten cs :=
  collectChildren_eq cs rules

/-- C5 (counterexample): `resolveSelector` uses
`child.replace(/&/g, parent)`, whose replacement string interprets `$`
escapes — with `parent = "$&"` and `child = "&"` the result is `"&"`, not
the literal substitution `"$&"` the claim asserts (computed by
`specResolveSelector`). -/
theorem resolveSelector_dollar_counterexample :
    resolveSelector "$&" "&" = "&" ∧ specResolveSelector "$&" "&" = "$&" ∧
    resolveSelector "$&" "&" ≠ specResolveSelector "$&" "&" := by
  decide

/-- C5 (amended): when `child` contains `&`, every `&` is replaced by the
ECMAScript replacement-template expansion of `parent` (`$$`, `$&`, a
`$`-backquote and `$`-apostrophe are special); for any `parent` without a
`$` this coincides with literal all-occurrence substitution, and the
`:`-append and descendant cases, and the claim's three examples, are as
stated. -/
theorem resolveSelector_template_semantics :
    (∀ parent child : String, '$' ∉ parent.data →
        resolveSelector parent child = specResolveSelector parent child) ∧
    resolveSelector "h1" "span" = "h1 span" ∧
    resolveSelector ".card" "&:nth-child(2)" = ".card:nth-child(2)" ∧
    resolveSelector "a" ":not(.x)" = "a:not(.x)" := by
  refine ⟨fun parent child h => ?_, by decide, by decide, by decide⟩
  by_cases hc : '&' ∈ child.data
  · have hb : child.data.contains '&' = true := by simpa using hc
    simp [resolveSelector, specResolveSelector, hb, jsReplaceAllAmp,
      jsReplaceAmpGo_no_dollar parent h]
  · simp [resolveSelector, specResolveSelector, hc]

/-- C5 (witness for the amended theorem): instantiation at
`parent = "h1"`, `child = "span"`, whose parent contains no `$`. -/
theorem resolveSelector_template_semantics_witness :
    resolveSelector "h1" "span" = specResolveSelector "h1" "span" :=
  resolveSelector_template_semantics.1 "h1" "span" (by decide)

/-- C6 (counterexample): `PSEUDO_NAME_MAP` is a plain object literal, so
the lookup `PSEUDO_NAME_MAP[key] ?? key` walks the `Object.prototype`
chain before falling back: for the inherited key `toString` it finds the
built-in method, whose string coercion is not the key.
`pseudoSelector("x", "toString")` is
`x:function toString() \x7b [native code] \x7d`, not the `x:toString`
the claim's "key verbatim otherwise" fallback asserts. -/
theorem pseudoSelector_prototype_counterexample :
    pseudoSelector "x" "toString" =
        "x:function toString() \x7b [native code] \x7d" ∧
    pseudoSelector "x" "toString" ≠ "x:toString" := by
  decide

/-- C6 (amended): `pseudoSelector(parent, key)` is
`parent ++ prefix ++ cssName`, with prefix `::` exactly on the fixed
pseudo-element set; `cssName` is the underscore-to-hyphen map entry when
present, else — the map being a plain object — the string-coerced
inherited `Object.prototype` property when `key` is one of those twelve
names, and `key` verbatim exactly when both lookups miss; the claim's
examples hold, and `placeholder` sits in both fixed sets and gets prefix
`::`. -/
theorem pseudoSelector_contract :
    (∀ parent key : String,
        pseudoSelector parent key =
          parent ++
            (if (["before", "after", "first_line", "first_letter", "selection",
                  "placeholder"] : List String).contains key then "::" else ":") ++
            ((PSEUDO_NAME_MAP.lookup key).getD
              ((OBJECT_PROTO_PROPS.lookup key).getD key))) ∧
    (∀ parent key : String,
        PSEUDO_NAME_MAP.lookup key = none →
        OBJECT_PROTO_PROPS.lookup key = none →
        pseudoSelector parent key =
          parent ++
            (if (["before", "after", "first_line", "first_letter", "selection",
                  "placeholder"] : List String).contains key then "::" else ":") ++
            key) ∧
    pseudoSelector "button" "hover" = "button:hover" ∧
    pseudoSelector "p" "before" = "p::before" ∧
    pseudoSelector "li" "nth_child" = "li:nth-child" ∧
    pseudoSelector "x" "placeholder" = "x::placeholder" ∧
    "placeholder" ∈ PSEUDO_CLASS ∧ "placeholder" ∈ PSEUDO_ELEMENT := by
  refine ⟨fun parent key => rfl, fun parent key h1 h2 => ?_, by decide,
    by decide, by decide, by decide, by decide, by decide⟩
  have h : pseudoSelector parent key =
      parent ++
        (if (["before", "after", "first_line", "first_letter", "selection",
              "placeholder"] : List String).contains key then "::" else ":") ++
        ((PSEUDO_NAME_MAP.lookup key).getD
          ((OBJECT_PROTO_PROPS.lookup key).getD key)) := rfl
  rw [h, h1, h2]
  rfl

/-- C6 (witness for the amended theorem): the both-lookups-miss case,
instantiated at `("button", "hover")`. -/
theorem pseudoSelector_contract_witness :
    pseudoSelector "button" "hover" =
      "button" ++
        (if (["before", "after", "first_line", "first_letter", "selection",
              "placeholder"] : List String).contains "hover" then "::" else ":") ++
        "hover" :=
  pseudoSelector_contract.2.1 "button" "hover" (by decide) (by decide)

/-- C7 (counterexample): the channel arithmetic happens in binary64, not
on exact rationals.  In the call `color.color3(0.00196078431372549, 0, 0)`
the literal's exact value times 255 is 0.49999999999999995, whose
half-up rounding is 0 — but `Number` parsing and the `* 255` product each
round to the nearest double, landing on exactly 0.5, so the program
renders channel 1. -/
theorem color3_binary64_counterexample :
    compileLuaCSS "a = \x7b b = color.color3(0.00196078431372549, 0, 0) \x7d" =
      (some "a \x7b\n  b: rgb(1, 0, 0);\n\x7d", []) ∧
    (⌊(196078431372549 : ℚ) / 10 ^ 17 * 255 + 1 / 2⌋ : ℤ) = 0 := by
  with_unfolding_all decide

/-- C7 (amended): `color.color3(r, g, b)` renders `rgb(R, G, B)` with no
diagnostic, each channel being `Math.round` of the binary64 product of
the argument and 255; whenever that product is exactly representable in
binary64 — as it is for every argument `k/510` with `0 ≤ k ≤ 510`, the
products then being the halves `k/2` — the channel equals the argument
times 255 rounded half-up, so `color3(1, 0, 0.5)` renders
`rgb(255, 0, 128)`. -/
theorem color3_binary64_rounding (r g b : ℚ)
    (hr0 : 0 ≤ r) (hr1 : r ≤ 1) (hg0 : 0 ≤ g) (hg1 : g ≤ 1)
    (hb0 : 0 ≤ b) (hb1 : b ≤ 1)
    (hr2 : fl64 (r * 255) = r * 255) (hg2 : fl64 (g * 255) = g * 255)
    (hb2 : fl64 (b * 255) = b * 255) :
    applyColorFn "color3" [.num (some r), .num (some g), .num (some b)] =
      ("rgb(" ++ toString ⌊r * 255 + 1 / 2⌋ ++ ", " ++ toString ⌊g * 255 + 1 / 2⌋ ++
        ", " ++ toString ⌊b * 255 + 1 / 2⌋ ++ ")", []) := by
  simp [applyColorFn, jsToNumOr0, jsRound, hr2, hg2, hb2]

/-- C7 (witness for the amended theorem): `color.color3(1, 0, 0.5)` — all
three products 255, 0 and 127.5 are exactly representable — renders
`rgb(255, 0, 128)` (127.5 rounds up to 128). -/
theorem color3_binary64_rounding_witness :
    applyColorFn "color3" [.num (some 1), .num (some 0), .num (some (1 / 2))] =
      ("rgb(255, 0, 128)", []) := by
  have h := color3_binary64_rounding 1 0 (1 / 2) (by norm_num) (by norm_num)
    (by norm_num) (by norm_num) (by norm_num) (by norm_num)
    (by with_unfolding_all decide) (by with_unfolding_all decide)
    (by with_unfolding_all decide)
  rw [h]
  norm_num
  decide

-- ─── Progress lemmas: the parser consumes tokens, fuel never runs out ───

theorem expectTok_state (v : String) (st : PState) :
    ((expectTok v st).2).tokens = st.tokens ∧
      st.pos ≤ ((expectTok v st).2).pos ∧ ((expectTok v st).2).pos ≤ st.pos + 1 := by
  unfold expectTok pushErr
  cases st.tokens.get? st.pos with
  | none => simp
  | some t =>
    by_cases h : t.v = v <;> simp [h]

theorem eatComma_state (st : PState) :
    (eatComma st).tokens = st.tokens ∧
      st.pos ≤ (eatComma st).pos ∧ (eatComma st).pos ≤ st.pos + 1 := by
  unfold eatComma eatTok
  cases peekTok st with
  | none => simp
  | some t =>
    by_cases h : t.v = "," <;> simp [h]

theorem peek_some_of_not_eof (st : PState) (h : eofP st = false) :
    ∃ t, peekTok st = some t := by
  simp only [eofP, decide_eq_false_iff_not, not_le] at h
  exact ⟨st.tokens.get ⟨st.pos, h⟩, List.get?_eq_get h⟩

theorem parseColorArgsF_progress :
    ∀ (fuel : Nat) (args : List JsVal) (st : PState),
      st.tokens.length < fuel + st.pos → 1 ≤ fuel →
      ∃ out st', parseColorArgsF fuel args st = some (out, st') ∧
        st.pos ≤ st'.pos ∧ st'.tokens = st.tokens := by
  intro fuel
  induction fuel with
  | zero => intro args st h h1; omega
  | succ f ih =>
    intro args st h _
    rw [parseColorArgsF]
    by_cases he : eofP st = true
    · exact ⟨args, st, by simp [he], le_refl _, rfl⟩
    · have he' : eofP st = false := by simpa using he
      obtain ⟨t, ht⟩ := peek_some_of_not_eof st he'
      have hlt : st.pos < st.tokens.length := by
        simpa [eofP, decide_eq_false_iff_not, not_le] using he'
      by_cases hv : t.v = ")"
      · exact ⟨args, st, by simp [he', ht, hv], le_refl _, rfl⟩
      · have hpre : st.tokens.length < f + ((eatTok st).2).pos := by
          simp only [eatTok]; omega
        have hf1 : 1 ≤ f := by omega
        obtain ⟨out, st', heq, hpos, htok⟩ :=
          ih (if t.v = "," then args else args ++ [toJsVal t]) ((eatTok st).2) hpre hf1
        refine ⟨out, st', ?_, ?_, ?_⟩
        · simp only [he', ht, hv, eatTok] at heq ⊢
          simp [heq]
        · simp only [eatTok] at hpos; omega
        · simpa [eatTok] using htok

theorem eatTok_tokens (st : PState) : ((eatTok st).2).tokens = st.tokens := rfl

theorem eatTok_pos (st : PState) : ((eatTok st).2).pos = st.pos + 1 := rfl

theorem expectTok_tokens (v : String) (st : PState) :
    ((expectTok v st).2).tokens = st.tokens := (expectTok_state v st).1

theorem expectTok_pos_ge (v : String) (st : PState) :
    st.pos ≤ ((expectTok v st).2).pos := (expectTok_state v st).2.1

theorem eatComma_tokens (st : PState) : (eatComma st).tokens = st.tokens :=
  (eatComma_state st).1

theorem eatComma_pos_ge (st : PState) : st.pos ≤ (eatComma st).pos :=
  (eatComma_state st).2.1

theorem parseColorF_progress (fuel : Nat) (st : PState)
    (h : st.tokens.length < fuel + st.pos) (h1 : 1 ≤ fuel) :
    ∃ out st', parseColorF fuel st = some (out, st') ∧
      st.pos ≤ st'.pos ∧ st'.tokens = st.tokens := by
  unfold parseColorF
  have t1 := expectTok_tokens "." ((eatTok st).2)
  have t2 := expectTok_tokens "(" ((eatTok ((expectTok "." ((eatTok st).2)).2)).2)
  have p1 := expectTok_pos_ge "." ((eatTok st).2)
  have p2 := expectTok_pos_ge "(" ((eatTok ((expectTok "." ((eatTok st).2)).2)).2)
  have hpre :
      ((expectTok "(" ((eatTok ((expectTok "." ((eatTok st).2)).2)).2)).2).tokens.length <
        fuel + ((expectTok "(" ((eatTok ((expectTok "." ((eatTok st).2)).2)).2)).2).pos := by
    rw [t2, eatTok_tokens, t1, eatTok_tokens]
    simp only [eatTok_pos] at p1 p2
    omega
  obtain ⟨args, st5, heq, hpos, htok⟩ := parseColorArgsF_progress fuel [] _ hpre h1
  simp only [heq]
  have t6 := expectTok_tokens ")" st5
  have p6 := expectTok_pos_ge ")" st5
  refine ⟨_, _, rfl, ?_, ?_⟩
  · show st.pos ≤ ((expectTok ")" st5).2).pos
    simp only [eatTok_pos] at p1 p2
    omega
  · show ((expectTok ")" st5).2).tokens = st.tokens
    simp only [t6, htok, t2, eatTok_tokens, t1]

/-- Unfolding lemma for the value-consumption loop at positive fuel (the
automatic equation generator cannot handle this definition's match
structure; the statement is definitionally the body). -/
theorem parseValueLoopF_succ (f paren brack brace : Nat) (val : String)
    (prev : Option Tok) (st : PState) :
    parseValueLoopF (f + 1) paren brack brace val prev st =
      match peekTok st with
      | none => some (val, st)
      | some n =>
        if eofP st || shouldStopValue st paren brack brace then some (val, st)
        else
          let piece := tokenToValuePiece (some n)
          let prevPiece := tokenToValuePiece prev
          let next := peekTok1 st
          let nextIsWordLike := wordLike n
          let prevIsWordLike := match prev with | some p => wordLike p | none => false
          let prevCanMath := prev.isSome && (prevIsWordLike || prevPiece = ")" || prevPiece = "]")
          let nextCanMath := match next with
            | some u => wordLike u || u.v = "("
            | none => false
          let isMathOperator := (piece = "+" || piece = "-") && prevCanMath && nextCanMath
          let needsSpace := prev.isSome &&
            ((prevIsWordLike && nextIsWordLike) || (prevPiece = ")" && nextIsWordLike))
          let val2 :=
            if isMathOperator then
              let v1 := if val ≠ "" ∧ ¬ jsEndsWithSpace val then val ++ " " else val
              let v2 := v1 ++ piece
              match next with
              | some u =>
                if u.v ≠ ")" ∧ u.v ≠ "," ∧ u.v ≠ "\x7d" ∧ u.v ≠ "end" then v2 ++ " " else v2
              | none => v2
            else (if needsSpace then val ++ " " else val) ++ piece
          let paren2 := if n.v = "(" then paren + 1 else if n.v = ")" then paren - 1 else paren
          let brack2 := if n.v = "[" then brack + 1 else if n.v = "]" then brack - 1 else brack
          let brace2 := if n.v = "\x7b" then brace + 1 else if n.v = "\x7d" then brace - 1 else brace
          parseValueLoopF f paren2 brack2 brace2 val2 (some n) ((eatTok st).2) := rfl

theorem parseValueLoopF_progress :
    ∀ (fuel paren brack brace : Nat) (val : String) (prev : Option Tok) (st : PState),
      st.tokens.length < fuel + st.pos → 1 ≤ fuel →
      ∃ out st', parseValueLoopF fuel paren brack brace val prev st = some (out, st') ∧
        st.pos ≤ st'.pos ∧ st'.tokens = st.tokens := by
  intro fuel
  induction fuel with
  | zero => intro _ _ _ _ _ _ _ h1; omega
  | succ f ih =>
    intro paren brack brace val prev st h _
    cases hn : peekTok st with
    | none =>
      refine ⟨val, st, ?_, le_refl _, rfl⟩
      rw [parseValueLoopF_succ]
      simp [hn]
    | some n =>
      by_cases hs : (eofP st || shouldStopValue st paren brack brace) = true
      · refine ⟨val, st, ?_, le_refl _, rfl⟩
        rw [parseValueLoopF_succ]
        simp [hn, hs]
      · have hs' : (eofP st || shouldStopValue st paren brack brace) = false := by
          simpa using hs
        rw [Bool.or_eq_false_iff] at hs'
        have hlt : st.pos < st.tokens.length := by
          have := hs'.1
          simp only [eofP, decide_eq_false_iff_not, not_le] at this
          exact this
        have hpre : ((eatTok st).2).tokens.length < f + ((eatTok st).2).pos := by
          simp only [eatTok_tokens, eatTok_pos]; omega
        have hf : 1 ≤ f := by omega
        obtain ⟨out, st', heq, hpos, htok⟩ := ih _ _ _ _ _ ((eatTok st).2) hpre hf
        refine ⟨out, st', ?_, ?_, ?_⟩
        · rw [parseValueLoopF_succ]
          simp only [hn, hs'.1, hs'.2, Bool.or_self, Bool.false_eq_true, if_false]
          exact heq
        · simp only [eatTok_pos] at hpos; omega
        · exact htok.trans (eatTok_tokens st)

theorem parseValueF_progress (fuel : Nat) (st : PState)
    (h : st.tokens.length < fuel + st.pos) (h1 : 1 ≤ fuel) :
    ∃ out st', parseValueF fuel st = some (out, st') ∧
      st.pos ≤ st'.pos ∧ st'.tokens = st.tokens := by
  obtain ⟨outC, stC, heqC, hposC, htokC⟩ := parseColorF_progress fuel st h h1
  obtain ⟨outV, stV, heqV, hposV, htokV⟩ :=
    parseValueLoopF_progress fuel 0 0 0 "" none st h h1
  unfold parseValueF
  cases hn : peekTok st with
  | none => exact ⟨"", st, by simp [hn], le_refl _, rfl⟩
  | some t =>
    simp only [hn]
    split
    · exact ⟨outC, stC, heqC, hposC, htokC⟩
    · split
      · exact ⟨"", st, rfl, le_refl _, rfl⟩
      · split
        · exact ⟨"", st, rfl, le_refl _, rfl⟩
        · rw [heqV]
          exact ⟨jsTrim outV, stV, rfl, hposV, htokV⟩

theorem parseFnLoopF_progress :
    ∀ (fuel : Nat) (props : List Decl) (st : PState),
      st.tokens.length < fuel + st.pos → 1 ≤ fuel →
      ∃ out st', parseFnLoopF fuel props st = some (out, st') ∧
        st.pos ≤ st'.pos ∧ st'.tokens = st.tokens := by
  intro fuel
  induction fuel with
  | zero => intro _ _ h h1; omega
  | succ f ih =>
    intro props st h _
    by_cases he : eofP st = true
    · exact ⟨props, st, by rw [parseFnLoopF]; simp [he], le_refl _, rfl⟩
    · have he' : eofP st = false := by simpa using he
      obtain ⟨t, ht⟩ := peek_some_of_not_eof st he'
      have hlt : st.pos < st.tokens.length := by
        have hh := he'
        simp only [eofP, decide_eq_false_iff_not, not_le] at hh
        exact hh
      have hf : 1 ≤ f := by omega
      by_cases hend : t.v = "end"
      · exact ⟨props, st, by rw [parseFnLoopF]; simp [he', ht, hend], le_refl _, rfl⟩
      by_cases hident : t.t = TKind.ident
      case neg =>
        have hpre : ((eatTok st).2).tokens.length < f + ((eatTok st).2).pos := by
          simp only [eatTok_tokens, eatTok_pos]; omega
        obtain ⟨out, st', heq, hpos, htok⟩ := ih props ((eatTok st).2) hpre hf
        refine ⟨out, st', ?_, ?_, ?_⟩
        · rw [parseFnLoopF]; simp [he', ht, hend, hident, heq]
        · simp only [eatTok_pos] at hpos; omega
        · exact htok.trans (eatTok_tokens st)
      case pos =>
        by_cases heqv : (peekTok ((eatTok st).2)).map Tok.v = some "="
        case neg =>
          have hpre : (eatComma ((eatTok st).2)).tokens.length <
              f + (eatComma ((eatTok st).2)).pos := by
            have h1 := eatComma_tokens ((eatTok st).2)
            have h2 := eatComma_pos_ge ((eatTok st).2)
            rw [h1, eatTok_tokens]
            simp only [eatTok_pos] at h2
            omega
          obtain ⟨out, st', heq, hpos, htok⟩ := ih props (eatComma ((eatTok st).2)) hpre hf
          refine ⟨out, st', ?_, ?_, ?_⟩
          · rw [parseFnLoopF]; simp [he', ht, hend, hident, heqv, heq]
          · have h2 := eatComma_pos_ge ((eatTok st).2)
            simp only [eatTok_pos] at h2
            omega
          · exact htok.trans ((eatComma_tokens _).trans (eatTok_tokens st))
        case pos =>
          have hpreV : ((eatTok ((eatTok st).2)).2).tokens.length <
              (f + 1) + ((eatTok ((eatTok st).2)).2).pos := by
            simp only [eatTok_tokens, eatTok_pos]; omega
          obtain ⟨value, st3, heqV, hposV, htokV⟩ :=
            parseValueF_progress (f + 1) ((eatTok ((eatTok st).2)).2) hpreV (by omega)
          have htok3 : st3.tokens = st.tokens := by
            rw [htokV, eatTok_tokens, eatTok_tokens]
          have hpos3 : st.pos + 2 ≤ st3.pos := by
            simp only [eatTok_pos] at hposV; omega
          have hpre : (eatComma st3).tokens.length < f + (eatComma st3).pos := by
            have h1 := eatComma_tokens st3
            have h2 := eatComma_pos_ge st3
            rw [h1, htok3]
            omega
          obtain ⟨out, st', heq, hpos, htok⟩ := ih _ (eatComma st3) hpre hf
          refine ⟨out, st', ?_, ?_, ?_⟩
          · rw [parseFnLoopF]
            simp only [he', ht, hend, hident, heqv, heqV, Bool.false_eq_true, if_false,
              ne_eq, not_true_eq_false, not_false_eq_true, if_true]
            simp [he', hend, hident, heqv, heqV]
            exact heq
          · have h2 := eatComma_pos_ge st3
            omega
          · exact htok.trans ((eatComma_tokens st3).trans htok3)

theorem parseFunctionBlockF_progress (fuel : Nat) (st : PState)
    (h : st.tokens.length < fuel + st.pos) (h1 : 1 ≤ fuel) :
    ∃ out st', parseFunctionBlockF fuel st = some (out, st') ∧
      st.pos ≤ st'.pos ∧ st'.tokens = st.tokens := by
  unfold parseFunctionBlockF
  have t1 := expectTok_tokens "function" st
  have p1 := expectTok_pos_ge "function" st
  have t2 := expectTok_tokens "(" ((expectTok "function" st).2)
  have p2 := expectTok_pos_ge "(" ((expectTok "function" st).2)
  have t3 := expectTok_tokens ")" ((expectTok "(" ((expectTok "function" st).2)).2)
  have p3 := expectTok_pos_ge ")" ((expectTok "(" ((expectTok "function" st).2)).2)
  have hpre :
      ((expectTok ")" ((expectTok "(" ((expectTok "function" st).2)).2)).2).tokens.length <
        fuel + ((expectTok ")" ((expectTok "(" ((expectTok "function" st).2)).2)).2).pos := by
    rw [t3, t2, t1]
    omega
  obtain ⟨props, st4, heq, hpos, htok⟩ := parseFnLoopF_progress fuel [] _ hpre h1
  simp only [heq]
  have t4 := expectTok_tokens "end" st4
  have p4 := expectTok_pos_ge "end" st4
  refine ⟨props, _, rfl, ?_, ?_⟩
  · show st.pos ≤ ((expectTok "end" st4).2).pos
    omega
  · show ((expectTok "end" st4).2).tokens = st.tokens
    rw [t4, htok, t3, t2, t1]

theorem scanSelString_tokens (st : PState) : ((scanSelString st).2).tokens = st.tokens := by
  unfold scanSelString
  cases peekTok st with
  | none => rfl
  | some u => by_cases h : u.t = TKind.str <;> simp [h, eatTok_tokens]

theorem scanSelString_pos_ge (st : PState) : st.pos ≤ ((scanSelString st).2).pos := by
  unfold scanSelString
  cases peekTok st with
  | none => exact le_refl _
  | some u => by_cases h : u.t = TKind.str <;> simp [h, eatTok]

theorem parseBlockLoopF_progress :
    ∀ (fuel : Nat) (sel : String) (props : List Decl) (children : RuleForest) (st : PState),
      st.tokens.length < fuel + st.pos → 1 ≤ fuel →
      ∃ p c st', parseBlockLoopF fuel sel props children st = some (p, c, st') ∧
        st.pos ≤ st'.pos ∧ st'.tokens = st.tokens := by
  intro fuel
  induction fuel with
  | zero => intro _ _ _ _ h h1; omega
  | succ f ih =>
    intro sel props children st h _
    by_cases hstop : (eofP st || ((peekTok st).map Tok.v = some "\x7d")) = true
    · exact ⟨props, children, st, by rw [parseBlockLoopF, if_pos hstop], le_refl _, rfl⟩
    have hor : (eofP st || ((peekTok st).map Tok.v = some "\x7d")) = false := by
      simpa using hstop
    have he' : eofP st = false := (Bool.or_eq_false_iff.mp hor).1
    obtain ⟨t, ht⟩ := peek_some_of_not_eof st he'
    have hlt : st.pos < st.tokens.length := by
      have hh := he'
      simp only [eofP, decide_eq_false_iff_not, not_le] at hh
      exact hh
    have hf : 1 ≤ f := by omega
    by_cases hbr : t.v = "["
    case pos =>
      have hp1 : st.pos + 1 ≤ ((scanSelString ((eatTok st).2)).2).pos := by
        have := scanSelString_pos_ge ((eatTok st).2)
        simp only [eatTok_pos] at this
        omega
      have ht1 : ((scanSelString ((eatTok st).2)).2).tokens = st.tokens :=
        (scanSelString_tokens _).trans (eatTok_tokens st)
      have hp4 : st.pos + 1 ≤
          ((expectTok "=" ((expectTok "]" ((scanSelString ((eatTok st).2)).2)).2)).2).pos := by
        have a1 := expectTok_pos_ge "]" ((scanSelString ((eatTok st).2)).2)
        have a2 := expectTok_pos_ge "=" ((expectTok "]" ((scanSelString ((eatTok st).2)).2)).2)
        omega
      have ht4 : ((expectTok "=" ((expectTok "]" ((scanSelString ((eatTok st).2)).2)).2)).2).tokens
          = st.tokens := by
        rw [expectTok_tokens, expectTok_tokens, ht1]
      by_cases hcur :
          (peekTok ((expectTok "=" ((expectTok "]" ((scanSelString ((eatTok st).2)).2)).2)).2)).map
            Tok.v = some "\x7b"
      case pos =>
        have hpreI :
            ((eatTok ((expectTok "=" ((expectTok "]"
                ((scanSelString ((eatTok st).2)).2)).2)).2)).2).tokens.length <
              f + ((eatTok ((expectTok "=" ((expectTok "]"
                ((scanSelString ((eatTok st).2)).2)).2)).2)).2).pos := by
          rw [eatTok_tokens, ht4]
          simp only [eatTok_pos]
          omega
        obtain ⟨cp, cc, st6, heqI, hposI, htokI⟩ := ih
          (resolveSelector sel ((scanSelString ((eatTok st).2)).1)) [] .nil
          ((eatTok ((expectTok "=" ((expectTok "]"
            ((scanSelString ((eatTok st).2)).2)).2)).2)).2) hpreI hf
        have htok6 : st6.tokens = st.tokens := by
          rw [htokI, eatTok_tokens, ht4]
        have hpos6 : st.pos + 2 ≤ st6.pos := by
          simp only [eatTok_pos] at hposI
          omega
        have hpreC : ((eatComma ((expectTok "\x7d" st6).2)).tokens).length <
            f + (eatComma ((expectTok "\x7d" st6).2)).pos := by
          rw [eatComma_tokens, expectTok_tokens, htok6]
          have a1 := expectTok_pos_ge "\x7d" st6
          have a2 := eatComma_pos_ge ((expectTok "\x7d" st6).2)
          omega
        obtain ⟨p, c, st', heqC, hposC, htokC⟩ := ih sel props
          (forestAppend children
            (.node (resolveSelector sel ((scanSelString ((eatTok st).2)).1)) cp cc .nil))
          (eatComma ((expectTok "\x7d" st6).2)) hpreC hf
        refine ⟨p, c, st', ?_, ?_, ?_⟩
        · rw [parseBlockLoopF, if_neg hstop]
          simp only [ht, if_pos hbr, if_pos hcur, heqI]
          exact heqC
        · have a1 := expectTok_pos_ge "\x7d" st6
          have a2 := eatComma_pos_ge ((expectTok "\x7d" st6).2)
          omega
        · rw [htokC, eatComma_tokens, expectTok_tokens, htok6]
      case neg =>
        have hpreC : ((eatComma ((expectTok "=" ((expectTok "]"
            ((scanSelString ((eatTok st).2)).2)).2)).2)).tokens).length <
              f + (eatComma ((expectTok "=" ((expectTok "]"
                ((scanSelString ((eatTok st).2)).2)).2)).2)).pos := by
          rw [eatComma_tokens, ht4]
          have a2 := eatComma_pos_ge
            ((expectTok "=" ((expectTok "]" ((scanSelString ((eatTok st).2)).2)).2)).2)
          omega
        obtain ⟨p, c, st', heqC, hposC, htokC⟩ := ih sel props children
          (eatComma ((expectTok "=" ((expectTok "]"
            ((scanSelString ((eatTok st).2)).2)).2)).2)) hpreC hf
        refine ⟨p, c, st', ?_, ?_, ?_⟩
        · rw [parseBlockLoopF, if_neg hstop]
          simp only [ht, if_pos hbr, if_neg hcur]
          exact heqC
        · have a2 := eatComma_pos_ge
            ((expectTok "=" ((expectTok "]" ((scanSelString ((eatTok st).2)).2)).2)).2)
          omega
        · rw [htokC, eatComma_tokens, ht4]
    case neg =>
    by_cases hident : t.t = TKind.ident
    case neg =>
      have hpre : ((eatTok st).2).tokens.length < f + ((eatTok st).2).pos := by
        simp only [eatTok_tokens, eatTok_pos]; omega
      obtain ⟨p, c, st', heq, hpos, htok⟩ := ih sel props children ((eatTok st).2) hpre hf
      refine ⟨p, c, st', ?_, ?_, ?_⟩
      · rw [parseBlockLoopF, if_neg hstop]
        simp only [ht, if_neg hbr, if_pos hident]
        exact heq
      · simp only [eatTok_pos] at hpos; omega
      · exact htok.trans (eatTok_tokens st)
    case pos =>
      by_cases heqv : (peekTok ((eatTok st).2)).map Tok.v = some "="
      case neg =>
        have hpre : ((eatComma ((eatTok st).2)).tokens).length <
            f + (eatComma ((eatTok st).2)).pos := by
          rw [eatComma_tokens, eatTok_tokens]
          have a2 := eatComma_pos_ge ((eatTok st).2)
          simp only [eatTok_pos] at a2
          omega
        obtain ⟨p, c, st', heq, hpos, htok⟩ := ih sel props children
          (eatComma ((eatTok st).2)) hpre hf
        refine ⟨p, c, st', ?_, ?_, ?_⟩
        · rw [parseBlockLoopF, if_neg hstop]
          simp only [ht, if_neg hbr, if_neg (not_not_intro hident), if_pos heqv]
          exact heq
        · have a2 := eatComma_pos_ge ((eatTok st).2)
          simp only [eatTok_pos] at a2
          omega
        · exact htok.trans ((eatComma_tokens _).trans (eatTok_tokens st))
      case pos =>
        by_cases hps : (isPseudo t.v &&
            ((peekTok ((eatTok ((eatTok st).2)).2)).map Tok.v = some "function")) = true
        case pos =>
          have hpreF : ((eatTok ((eatTok st).2)).2).tokens.length <
              (f + 1) + ((eatTok ((eatTok st).2)).2).pos := by
            simp only [eatTok_tokens, eatTok_pos]; omega
          obtain ⟨fnProps, st3, heqF, hposF, htokF⟩ :=
            parseFunctionBlockF_progress (f + 1) ((eatTok ((eatTok st).2)).2) hpreF (by omega)
          have htok3 : st3.tokens = st.tokens := by
            rw [htokF, eatTok_tokens, eatTok_tokens]
          have hpos3 : st.pos + 2 ≤ st3.pos := by
            simp only [eatTok_pos] at hposF; omega
          have hpreC : ((eatComma st3).tokens).length < f + (eatComma st3).pos := by
            rw [eatComma_tokens, htok3]
            have a2 := eatComma_pos_ge st3
            omega
          obtain ⟨p, c, st', heqC, hposC, htokC⟩ := ih sel props
            (forestAppend children (.node (pseudoSelector sel t.v) fnProps .nil .nil))
            (eatComma st3) hpreC hf
          refine ⟨p, c, st', ?_, ?_, ?_⟩
          · rw [parseBlockLoopF, if_neg hstop]
            simp only [ht, if_neg hbr, if_neg (not_not_intro hident),
              if_neg (not_not_intro heqv), if_pos hps, heqF]
            exact heqC
          · have a2 := eatComma_pos_ge st3
            omega
          · rw [htokC, eatComma_tokens, htok3]
        case neg =>
          by_cases hbl : (peekTok ((eatTok ((eatTok st).2)).2)).map Tok.v = some "\x7b"
          case pos =>
            have hpreI : ((eatTok ((eatTok ((eatTok st).2)).2)).2).tokens.length <
                f + ((eatTok ((eatTok ((eatTok st).2)).2)).2).pos := by
              simp only [eatTok_tokens, eatTok_pos]; omega
            obtain ⟨cp, cc, st4, heqI, hposI, htokI⟩ := ih
              (resolveSelector sel (jsHyphenate t.v)) [] .nil
              ((eatTok ((eatTok ((eatTok st).2)).2)).2) hpreI hf
            have htok4 : st4.tokens = st.tokens := by
              rw [htokI, eatTok_tokens, eatTok_tokens, eatTok_tokens]
            have hpos4 : st.pos + 3 ≤ st4.pos := by
              simp only [eatTok_pos] at hposI; omega
            have hpreC : ((eatComma ((expectTok "\x7d" st4).2)).tokens).length <
                f + (eatComma ((expectTok "\x7d" st4).2)).pos := by
              rw [eatComma_tokens, expectTok_tokens, htok4]
              have a1 := expectTok_pos_ge "\x7d" st4
              have a2 := eatComma_pos_ge ((expectTok "\x7d" st4).2)
              omega
            obtain ⟨p, c, st', heqC, hposC, htokC⟩ := ih sel props
              (forestAppend children
                (.node (resolveSelector sel (jsHyphenate t.v)) cp cc .nil))
              (eatComma ((expectTok "\x7d" st4).2)) hpreC hf
            refine ⟨p, c, st', ?_, ?_, ?_⟩
            · rw [parseBlockLoopF, if_neg hstop]
              simp only [ht, if_neg hbr, if_neg (not_not_intro hident),
                if_neg (not_not_intro heqv), if_neg hps, if_pos hbl, heqI]
              exact heqC
            · have a1 := expectTok_pos_ge "\x7d" st4
              have a2 := eatComma_pos_ge ((expectTok "\x7d" st4).2)
              omega
            · rw [htokC, eatComma_tokens, expectTok_tokens, htok4]
          case neg =>
            have hpreV : ((eatTok ((eatTok st).2)).2).tokens.length <
                (f + 1) + ((eatTok ((eatTok st).2)).2).pos := by
              simp only [eatTok_tokens, eatTok_pos]; omega
            obtain ⟨value, st3, heqV, hposV, htokV⟩ :=
              parseValueF_progress (f + 1) ((eatTok ((eatTok st).2)).2) hpreV (by omega)
            have htok3 : st3.tokens = st.tokens := by
              rw [htokV, eatTok_tokens, eatTok_tokens]
            have hpos3 : st.pos + 2 ≤ st3.pos := by
              simp only [eatTok_pos] at hposV; omega
            have hpreC : ((eatComma st3).tokens).length < f + (eatComma st3).pos := by
              rw [eatComma_tokens, htok3]
              have a2 := eatComma_pos_ge st3
              omega
            obtain ⟨p, c, st', heqC, hposC, htokC⟩ := ih sel
              (if value ≠ "" then props ++ [(⟨jsHyphenate t.v, value⟩ : Decl)] else props)
              children (eatComma st3) hpreC hf
            refine ⟨p, c, st', ?_, ?_, ?_⟩
            · rw [parseBlockLoopF, if_neg hstop]
              simp only [ht, if_neg hbr, if_neg (not_not_intro hident),
                if_neg (not_not_intro heqv), if_neg hps, if_neg hbl, heqV]
              exact heqC
            · have a2 := eatComma_pos_ge st3
              omega
            · rw [htokC, eatComma_tokens, htok3]

theorem parseBlockF_progress (fuel : Nat) (sel : String) (st : PState)
    (h : st.tokens.length < fuel + st.pos) (h1 : 1 ≤ fuel) :
    ∃ p c st', parseBlockF fuel sel st = some (p, c, st') ∧
      st.pos ≤ st'.pos ∧ st'.tokens = st.tokens := by
  unfold parseBlockF
  have t1 := expectTok_tokens "\x7b" st
  have p1 := expectTok_pos_ge "\x7b" st
  have hpre : ((expectTok "\x7b" st).2).tokens.length <
      fuel + ((expectTok "\x7b" st).2).pos := by
    rw [t1]; omega
  obtain ⟨p, c, st2, heq, hpos, htok⟩ := parseBlockLoopF_progress fuel sel [] .nil _ hpre h1
  simp only [heq]
  have t2 := expectTok_tokens "\x7d" st2
  have p2 := expectTok_pos_ge "\x7d" st2
  refine ⟨p, c, _, rfl, ?_, ?_⟩
  · show st.pos ≤ ((expectTok "\x7d" st2).2).pos
    omega
  · show ((expectTok "\x7d" st2).2).tokens = st.tokens
    rw [t2, htok, t1]

theorem parseTopF_progress :
    ∀ (fuel : Nat) (rules : List FlatRule) (st : PState),
      st.tokens.length < fuel + st.pos → 1 ≤ fuel →
      ∃ out st', parseTopF fuel rules st = some (out, st') ∧
        st.pos ≤ st'.pos ∧ st'.tokens = st.tokens := by
  intro fuel
  induction fuel with
  | zero => intro _ _ h h1; omega
  | succ f ih =>
    intro rules st h _
    by_cases he : eofP st = true
    · exact ⟨rules, st, by rw [parseTopF, if_pos he], le_refl _, rfl⟩
    have he' : eofP st = false := by simpa using he
    obtain ⟨t, ht⟩ := peek_some_of_not_eof st he'
    have hlt : st.pos < st.tokens.length := by
      have hh := he'
      simp only [eofP, decide_eq_false_iff_not, not_le] at hh
      exact hh
    have hf : 1 ≤ f := by omega
    by_cases hident : t.t = TKind.ident
    case pos =>
      -- identifier selector: stA := (eatTok st).2
      by_cases heqv : (peekTok ((eatTok st).2)).map Tok.v = some "="
      case neg =>
        have hpre : ((eatTok st).2).tokens.length < f + ((eatTok st).2).pos := by
          simp only [eatTok_tokens, eatTok_pos]; omega
        obtain ⟨out, st', heq, hpos, htok⟩ := ih rules ((eatTok st).2) hpre hf
        refine ⟨out, st', ?_, ?_, ?_⟩
        · rw [parseTopF, if_neg he]
          simp only [ht, if_pos hident, if_pos heqv]
          exact heq
        · simp only [eatTok_pos] at hpos; omega
        · exact htok.trans (eatTok_tokens st)
      case pos =>
        by_cases hbl : (peekTok ((eatTok ((eatTok st).2)).2)).map Tok.v = some "\x7b"
        case neg =>
          have hpre : ((eatTok ((eatTok st).2)).2).tokens.length <
              f + ((eatTok ((eatTok st).2)).2).pos := by
            simp only [eatTok_tokens, eatTok_pos]; omega
          obtain ⟨out, st', heq, hpos, htok⟩ := ih rules ((eatTok ((eatTok st).2)).2) hpre hf
          refine ⟨out, st', ?_, ?_, ?_⟩
          · rw [parseTopF, if_neg he]
            simp only [ht, if_pos hident, if_neg (not_not_intro heqv), if_pos hbl]
            exact heq
          · simp only [eatTok_pos] at hpos; omega
          · exact htok.trans ((eatTok_tokens _).trans (eatTok_tokens st))
        case pos =>
          have hpreB : ((eatTok ((eatTok st).2)).2).tokens.length <
              (f + 1) + ((eatTok ((eatTok st).2)).2).pos := by
            simp only [eatTok_tokens, eatTok_pos]; omega
          obtain ⟨props, cs, stC, heqB, hposB, htokB⟩ :=
            parseBlockF_progress (f + 1) t.v ((eatTok ((eatTok st).2)).2) hpreB (by omega)
          have htokC : stC.tokens = st.tokens := by
            rw [htokB, eatTok_tokens, eatTok_tokens]
          have hposC : st.pos + 2 ≤ stC.pos := by
            simp only [eatTok_pos] at hposB; omega
          have hpreC : stC.tokens.length < f + stC.pos := by
            rw [htokC]; omega
          obtain ⟨out, st', heq, hpos, htok⟩ := ih
            (collectChildren cs
              (if props ≠ [] then rules ++ [(⟨t.v, props⟩ : FlatRule)] else rules))
            stC hpreC hf
          refine ⟨out, st', ?_, ?_, ?_⟩
          · rw [parseTopF, if_neg he]
            simp only [ht, if_pos hident, if_neg (not_not_intro heqv),
              if_neg (not_not_intro hbl), heqB]
            exact heq
          · omega
          · exact htok.trans htokC
    case neg =>
      by_cases hbr : t.v = "["
      case neg =>
        -- skip a token
        have hpre : ((eatTok st).2).tokens.length < f + ((eatTok st).2).pos := by
          simp only [eatTok_tokens, eatTok_pos]; omega
        obtain ⟨out, st', heq, hpos, htok⟩ := ih rules ((eatTok st).2) hpre hf
        refine ⟨out, st', ?_, ?_, ?_⟩
        · rw [parseTopF, if_neg he]
          simp only [ht, if_neg hident, if_neg hbr]
          exact heq
        · simp only [eatTok_pos] at hpos; omega
        · exact htok.trans (eatTok_tokens st)
      case pos =>
        -- bracketed selector: stA := (expectTok "]" (scanSelString (eatTok st).2).2).2
        have htA : ((expectTok "]" ((scanSelString ((eatTok st).2)).2)).2).tokens
            = st.tokens := by
          rw [expectTok_tokens, scanSelString_tokens, eatTok_tokens]
        have hpA : st.pos + 1 ≤ ((expectTok "]" ((scanSelString ((eatTok st).2)).2)).2).pos := by
          have a1 := scanSelString_pos_ge ((eatTok st).2)
          have a2 := expectTok_pos_ge "]" ((scanSelString ((eatTok st).2)).2)
          simp only [eatTok_pos] at a1
          omega
        by_cases heqv : (peekTok ((expectTok "]" ((scanSelString ((eatTok st).2)).2)).2)).map
            Tok.v = some "="
        case neg =>
          have hpre : ((expectTok "]" ((scanSelString ((eatTok st).2)).2)).2).tokens.length <
              f + ((expectTok "]" ((scanSelString ((eatTok st).2)).2)).2).pos := by
            rw [htA]; omega
          obtain ⟨out, st', heq, hpos, htok⟩ := ih rules
            ((expectTok "]" ((scanSelString ((eatTok st).2)).2)).2) hpre hf
          refine ⟨out, st', ?_, ?_, ?_⟩
          · rw [parseTopF, if_neg he]
            simp only [ht, if_neg hident, if_pos hbr, if_pos heqv]
            exact heq
          · omega
          · exact htok.trans htA
        case pos =>
          by_cases hbl : (peekTok ((eatTok ((expectTok "]"
              ((scanSelString ((eatTok st).2)).2)).2)).2)).map Tok.v = some "\x7b"
          case neg =>
            have hpre : ((eatTok ((expectTok "]"
                ((scanSelString ((eatTok st).2)).2)).2)).2).tokens.length <
                  f + ((eatTok ((expectTok "]"
                    ((scanSelString ((eatTok st).2)).2)).2)).2).pos := by
              rw [eatTok_tokens, htA]
              simp only [eatTok_pos]
              omega
            obtain ⟨out, st', heq, hpos, htok⟩ := ih rules
              ((eatTok ((expectTok "]" ((scanSelString ((eatTok st).2)).2)).2)).2) hpre hf
            refine ⟨out, st', ?_, ?_, ?_⟩
            · rw [parseTopF, if_neg he]
              simp only [ht, if_neg hident, if_pos hbr, if_neg (not_not_intro heqv),
                if_pos hbl]
              exact heq
            · simp only [eatTok_pos] at hpos; omega
            · exact htok.trans ((eatTok_tokens _).trans htA)
          case pos =>
            have hpreB : ((eatTok ((expectTok "]"
                ((scanSelString ((eatTok st).2)).2)).2)).2).tokens.length <
                  (f + 1) + ((eatTok ((expectTok "]"
                    ((scanSelString ((eatTok st).2)).2)).2)).2).pos := by
              rw [eatTok_tokens, htA]
              simp only [eatTok_pos]
              omega
            obtain ⟨props, cs, stC, heqB, hposB, htokB⟩ :=
              parseBlockF_progress (f + 1) ((scanSelString ((eatTok st).2)).1)
                ((eatTok ((expectTok "]" ((scanSelString ((eatTok st).2)).2)).2)).2)
                hpreB (by omega)
            have htokC : stC.tokens = st.tokens := by
              rw [htokB, eatTok_tokens, htA]
            have hposC : st.pos + 2 ≤ stC.pos := by
              simp only [eatTok_pos] at hposB; omega
            have hpreC : stC.tokens.length < f + stC.pos := by
              rw [htokC]; omega
            obtain ⟨out, st', heq, hpos, htok⟩ := ih
              (collectChildren cs
                (if props ≠ [] then
                  rules ++ [(⟨(scanSelString ((eatTok st).2)).1, props⟩ : FlatRule)]
                 else rules))
              stC hpreC hf
            refine ⟨out, st', ?_, ?_, ?_⟩
            · rw [parseTopF, if_neg he]
              simp only [ht, if_neg hident, if_pos hbr, if_neg (not_not_intro heqv),
                if_neg (not_not_intro hbl), heqB]
              exact heq
            · omega
            · exact htok.trans htokC

-- ─── Tokenizer progress ──────────────────────────────────────────────────

theorem dropWhileLenLe {α : Type} (p : α → Bool) :
    ∀ l : List α, (l.dropWhile p).length ≤ l.length := by
  intro l
  induction l with
  | nil => simp
  | cons a l ih =>
    rw [List.dropWhile_cons]
    split
    · simp only [List.length_cons]
      omega
    · exact le_refl _

theorem scanString_rest_length (q : Char) :
    ∀ (n : Nat) (cs : List Char), cs.length ≤ n →
      ((scanString q cs).2).length ≤ cs.length := by
  intro n
  induction n with
  | zero =>
    intro cs h
    cases cs with
    | nil => simp [scanString]
    | cons c cs' => simp at h
  | succ n ih =>
    intro cs h
    cases cs with
    | nil => simp [scanString]
    | cons c cs' =>
      rw [scanString.eq_def]
      by_cases hq : c = q
      · simp [hq]
      · by_cases hb : c = '\\'
        · have hq2 : ¬ ('\\' = q) := by rw [← hb]; exact hq
          cases cs' with
          | nil => simp [hq, hb, hq2]
          | cons d ds =>
            have hd := ih ds (by simp at h; omega)
            simp only [hq, hb, hq2, if_neg, if_pos, ite_true, ite_false]
            simp [hq2]
            omega
        · have hd := ih cs' (by simp at h; omega)
          simp [hq, hb]
          omega

theorem scanStringRestLe (q : Char) (cs : List Char) :
    ((scanString q cs).2).length ≤ cs.length :=
  scanString_rest_length q cs.length cs (le_refl _)

theorem tokStep_rest_length (c : Char) (cs : List Char) :
    ((tokStep c cs).2).length ≤ cs.length := by
  unfold tokStep
  repeat' split
  all_goals
    first
    | exact dropWhileLenLe _ _
    | exact le_refl _
    | exact scanStringRestLe _ _
    | exact le_trans (dropWhileLenLe _ _) (dropWhileLenLe _ _)
    | exact le_trans (dropWhileLenLe _ _) (by simp_all)
    | simp_all [dropWhileLenLe, scanStringRestLe]

theorem tokenizeF_isSome :
    ∀ (fuel : Nat) (cs : List Char), cs.length < fuel →
      (tokenizeF fuel cs).isSome = true := by
  intro fuel
  induction fuel with
  | zero => intro cs h; omega
  | succ f ih =>
    intro cs h
    cases cs with
    | nil => simp [tokenizeF]
    | cons c cs' =>
      rw [tokenizeF]
      have hlen := tokStep_rest_length c cs'
      have hs := ih ((tokStep c cs').2) (by simp at h; omega)
      obtain ⟨ts, hts⟩ := Option.isSome_iff_exists.mp hs
      simp [hts]

-- ─── Claim theorems (whole-pipeline) ─────────────────────────────────────

/-- C9: the tokenizer and the parser terminate within a number of steps
linear in the input size: the fueled tokenizer succeeds with fuel
`length + 1` (every step consumes at least one character), and the fueled
parser succeeds with fuel `tokenCount + 1` (every loop iteration consumes
at least one token and the cursor never moves backwards), which is exactly
the fuel `compileLuaCSS` runs with. -/
theorem compile_terminates_linear_fuel (src : String) :
    (tokenizeF (src.data.length + 1) src.data).isSome = true ∧
    (parseTopF (compileFuel src) [] (initPState src)).isSome = true := by
  constructor
  · exact tokenizeF_isSome _ _ (by omega)
  · obtain ⟨out, st', heq, _, _⟩ := parseTopF_progress (compileFuel src) [] (initPState src)
      (by simp [initPState, compileFuel]) (by simp [compileFuel])
    simp [heq]

/-- C1: the compile operation returns exactly one of three shapes — with
at least one parsed rule the stylesheet is the emitted CSS and the
diagnostics are the accumulated warnings; with zero rules and at least one
diagnostic the stylesheet is `none` (`null`); with zero rules and zero
diagnostics the stylesheet is the empty string. -/
theorem compile_output_contract (src : String) :
    (parsedRules src ≠ [] →
      compileLuaCSS src = (some (emit (parsedRules src)), parsedErrors src)) ∧
    (parsedRules src = [] → parsedErrors src ≠ [] →
      compileLuaCSS src = (none, parsedErrors src)) ∧
    (parsedRules src = [] → parsedErrors src = [] →
      compileLuaCSS src = (some "", parsedErrors src)) := by
  obtain ⟨out, st', heq, _, _⟩ := parseTopF_progress (compileFuel src) [] (initPState src)
    (by simp [initPState, compileFuel]) (by simp [compileFuel])
  have hpr : parseResult src = some (out, st') := heq
  simp only [compileLuaCSS, parsedRules, parsedErrors, hpr]
  refine ⟨?_, ?_, ?_⟩
  · intro hne
    rw [if_neg (by intro hand; exact hne hand.2)]
  · intro h1 h2
    rw [if_pos ⟨h2, h1⟩]
  · intro h1 h2
    rw [if_neg (by intro hand; exact hand.1 h2), h1]
    rfl

/-- C1 (witness): the empty input yields zero rules and zero diagnostics,
so the stylesheet is the empty string. -/
theorem compile_output_contract_witness : compileLuaCSS "" = (some "", []) := by
  have h := (compile_output_contract "").2.2 (by decide) (by decide)
  exact h.trans (by decide)

-- ─── Stream helpers for the parseColor theorem ───────────────────────────

theorem listGetDrop {α : Type} : ∀ (n : Nat) (l : List α), l.get? n = (l.drop n).head? := by
  intro n
  induction n with
  | zero => intro l; cases l <;> rfl
  | succ k ih =>
    intro l
    cases l with
    | nil => rfl
    | cons a l2 => exact ih l2

theorem getOfDrop {α : Type} {l : List α} {n : Nat} {x : α} {r : List α}
    (h : l.drop n = x :: r) : l.get? n = some x := by
  rw [listGetDrop, h]
  rfl

theorem dropSuccOfDrop {α : Type} {l : List α} {n : Nat} {x : α} {r : List α}
    (h : l.drop n = x :: r) : l.drop (n + 1) = r := by
  have h2 : l.drop (n + 1) = (l.drop n).drop 1 := by
    rw [List.drop_drop]
  rw [h2, h]
  rfl

theorem ltLenOfDrop {α : Type} {l : List α} {n : Nat} {x : α} {r : List α}
    (h : l.drop n = x :: r) : n < l.length := by
  have hlen := congrArg List.length h
  simp only [List.length_drop, List.length_cons] at hlen
  omega

theorem expectTok_success {val : String} {st : PState} {t : Tok}
    (h1 : st.tokens.get? st.pos = some t) (h2 : t.v = val) :
    expectTok val st = (some t, ⟨st.tokens, st.pos + 1, st.errors⟩) := by
  unfold expectTok
  rw [h1]
  simp [h2]

theorem parseColorArgsF_run :
    ∀ (argToks : List Tok) (fuel : Nat) (args : List JsVal) (st : PState)
      (cl : Tok) (rest : List Tok),
      st.tokens.drop st.pos = argToks ++ cl :: rest → cl.v = ")" →
      (∀ a ∈ argToks, a.v ≠ ")") → argToks.length < fuel →
      ∃ args', parseColorArgsF fuel args st =
        some (args', ⟨st.tokens, st.pos + argToks.length, st.errors⟩) := by
  intro argToks
  induction argToks with
  | nil =>
    intro fuel args st cl rest hdrop hcl _ hfuel
    cases fuel with
    | zero => omega
    | succ f =>
      simp only [List.nil_append] at hdrop
      have hget : st.tokens.get? st.pos = some cl := getOfDrop hdrop
      have hlt : st.pos < st.tokens.length := ltLenOfDrop hdrop
      have he : eofP st = false := by
        simp only [eofP, decide_eq_false_iff_not, not_le]
        exact hlt
      have hget2 : st.tokens[st.pos]? = some cl := by simpa using hget
      refine ⟨args, ?_⟩
      rw [parseColorArgsF]
      simp [he, peekTok, hget2, hcl]
  | cons a as ih =>
    intro fuel args st cl rest hdrop hcl hargs hfuel
    cases fuel with
    | zero => simp at hfuel
    | succ f =>
      simp only [List.cons_append] at hdrop
      have hget : st.tokens.get? st.pos = some a := getOfDrop hdrop
      have hlt : st.pos < st.tokens.length := ltLenOfDrop hdrop
      have he : eofP st = false := by
        simp only [eofP, decide_eq_false_iff_not, not_le]
        exact hlt
      have hdrop2 : st.tokens.drop (st.pos + 1) = as ++ cl :: rest := dropSuccOfDrop hdrop
      have hav : a.v ≠ ")" := hargs a (by simp)
      obtain ⟨args', heq⟩ := ih f (if a.v = "," then args else args ++ [toJsVal a])
        ((eatTok st).2) cl rest hdrop2 hcl
        (fun x hx => hargs x (by simp [hx])) (by simp at hfuel; omega)
      have hget2 : st.tokens[st.pos]? = some a := by simpa using hget
      refine ⟨args', ?_⟩
      rw [parseColorArgsF]
      have harith : st.pos + 1 + as.length = st.pos + (a :: as).length := by
        simp only [List.length_cons]
        omega
      simp only [he, Bool.false_eq_true, if_false, peekTok, List.get?_eq_getElem?,
        hget2, hav, ite_false]
      simp [hav, heq, harith]
      exact ⟨rfl, by simp only [eatTok_pos]; omega, rfl⟩

/-- C8: a syntactically well-formed color-constructor call
`color . fn ( args )` whose function name is not one of `hex`, `rgb`,
`rgba`, `hsl`, `hsla`, `color3` makes `parseColor` record exactly one
diagnostic (`Unknown color function: color.fn`), return the value
`#000000`, and leave the cursor just past the closing parenthesis, so
parsing continues past the call. -/
theorem unknown_color_fn_diagnostic
    (st : PState) (c d ftk o cl : Tok) (argToks rest : List Tok) (fuel : Nat)
    (hc : c.t = TKind.ident ∧ c.v = "color")
    (hstream : st.tokens.drop st.pos = c :: d :: ftk :: o :: (argToks ++ cl :: rest))
    (hd : d.v = ".") (ho : o.v = "(") (hcl : cl.v = ")")
    (hfn : ftk.v ∉ (["hex", "rgb", "rgba", "hsl", "hsla", "color3"] : List String))
    (hargs : ∀ a ∈ argToks, a.v ≠ ")")
    (hfuel : argToks.length < fuel) :
    parseColorF fuel st =
      some ("#000000",
        ⟨st.tokens, st.pos + 5 + argToks.length,
          st.errors ++ ["Unknown color function: color." ++ ftk.v]⟩) := by
  have h1 : st.tokens.drop (st.pos + 1) = d :: ftk :: o :: (argToks ++ cl :: rest) :=
    dropSuccOfDrop hstream
  have h2 : st.tokens.drop (st.pos + 1 + 1) = ftk :: o :: (argToks ++ cl :: rest) :=
    dropSuccOfDrop h1
  have h3 : st.tokens.drop (st.pos + 1 + 1 + 1) = o :: (argToks ++ cl :: rest) :=
    dropSuccOfDrop h2
  have h4 : st.tokens.drop (st.pos + 1 + 1 + 1 + 1) = argToks ++ cl :: rest :=
    dropSuccOfDrop h3
  have g1 : st.tokens.get? (st.pos + 1) = some d := getOfDrop h1
  have g2 : st.tokens.get? (st.pos + 1 + 1) = some ftk := getOfDrop h2
  have g3 : st.tokens.get? (st.pos + 1 + 1 + 1) = some o := getOfDrop h3
  have g5 : st.tokens.get? (st.pos + 1 + 1 + 1 + 1 + argToks.length) = some cl := by
    refine getOfDrop (r := rest) ?_
    have hdd : st.tokens.drop (st.pos + 1 + 1 + 1 + 1 + argToks.length) =
        (st.tokens.drop (st.pos + 1 + 1 + 1 + 1)).drop argToks.length := by
      rw [List.drop_drop]
    rw [hdd, h4, List.drop_left]
  obtain ⟨args', heqA⟩ := parseColorArgsF_run argToks fuel []
    ⟨st.tokens, st.pos + 1 + 1 + 1 + 1, st.errors⟩ cl rest h4 hcl hargs hfuel
  simp only [List.mem_cons, List.mem_singleton, not_or] at hfn
  obtain ⟨n1, n2, n3, n4, n5, n6, -⟩ := hfn
  unfold parseColorF
  simp only [eatTok]
  rw [@expectTok_success "." ⟨st.tokens, st.pos + 1, st.errors⟩ d g1 hd]
  simp only [g2]
  rw [@expectTok_success "(" ⟨st.tokens, st.pos + 1 + 1 + 1, st.errors⟩ o g3 ho]
  simp only [heqA]
  rw [@expectTok_success ")"
    ⟨st.tokens, st.pos + 1 + 1 + 1 + 1 + argToks.length, st.errors⟩ cl g5 hcl]
  simp only [applyColorFn, if_neg n1, if_neg n2, if_neg n3, if_neg n4, if_neg n5,
    if_neg n6]
  have harith : st.pos + 1 + 1 + 1 + 1 + argToks.length + 1 =
      st.pos + 5 + argToks.length := by omega
  rw [harith]

/-- C8 (witness): `color.wat()` records exactly one diagnostic, returns
`#000000`, and leaves the cursor after the `)`. -/
theorem unknown_color_fn_diagnostic_witness :
    parseColorF 1
      ⟨[⟨TKind.ident, "color", ""⟩, ⟨TKind.punct, ".", ""⟩, ⟨TKind.ident, "wat", ""⟩,
        ⟨TKind.punct, "(", ""⟩, ⟨TKind.punct, ")", ""⟩], 0, []⟩ =
      some ("#000000",
        ⟨[⟨TKind.ident, "color", ""⟩, ⟨TKind.punct, ".", ""⟩, ⟨TKind.ident, "wat", ""⟩,
          ⟨TKind.punct, "(", ""⟩, ⟨TKind.punct, ")", ""⟩], 5,
          ["Unknown color function: color.wat"]⟩) := by
  have h := unknown_color_fn_diagnostic
    ⟨[⟨TKind.ident, "color", ""⟩, ⟨TKind.punct, ".", ""⟩, ⟨TKind.ident, "wat", ""⟩,
      ⟨TKind.punct, "(", ""⟩, ⟨TKind.punct, ")", ""⟩], 0, []⟩
    ⟨TKind.ident, "color", ""⟩ ⟨TKind.punct, ".", ""⟩ ⟨TKind.ident, "wat", ""⟩
    ⟨TKind.punct, "(", ""⟩ ⟨TKind.punct, ")", ""⟩ [] [] 1
    ⟨rfl, rfl⟩ rfl rfl rfl rfl (by decide) (by simp) (by decide)
  simpa using h

-- ─── The flat rule list never holds an empty declaration list ────────────

theorem pushCollect_inv (cs : RuleForest) (rules : List FlatRule) (sel : String)
    (props : List Decl) (hinv : ∀ r ∈ rules, r.props ≠ []) :
    ∀ r ∈ collectChildren cs
        (if props ≠ [] then rules ++ [(⟨sel, props⟩ : FlatRule)] else rules),
      r.props ≠ [] := by
  intro r hr
  rw [collectChildren_eq] at hr
  rcases List.mem_append.mp hr with hr | hr
  · by_cases hp : props = []
    · rw [if_neg (fun hh => hh hp)] at hr
      exact hinv r hr
    · rw [if_pos hp] at hr
      rcases List.mem_append.mp hr with hr | hr
      · exact hinv r hr
      · simp at hr
        subst hr
        exact hp
  · exact preorderFlatten_props_ne _ r hr

theorem parseTopF_props_ne :
    ∀ (fuel : Nat) (rules : List FlatRule) (st : PState) (out : List FlatRule) (st' : PState),
      parseTopF fuel rules st = some (out, st') →
      (∀ r ∈ rules, r.props ≠ []) → ∀ r ∈ out, r.props ≠ [] := by
  intro fuel
  induction fuel with
  | zero =>
    intro rules st out st' heq
    rw [parseTopF] at heq
    exact absurd heq (by simp)
  | succ f ih =>
    intro rules st out st' heq hinv
    by_cases he : eofP st = true
    · rw [parseTopF, if_pos he] at heq
      simp only [Option.some.injEq, Prod.mk.injEq] at heq
      obtain ⟨h1, -⟩ := heq
      subst h1
      exact hinv
    · cases hn : peekTok st with
      | none =>
        rw [parseTopF, if_neg he] at heq
        simp only [hn, Option.some.injEq, Prod.mk.injEq] at heq
        obtain ⟨h1, -⟩ := heq
        subst h1
        exact hinv
      | some t =>
        rw [parseTopF, if_neg he] at heq
        simp only [hn] at heq
        by_cases hident : t.t = TKind.ident
        case pos =>
          simp only [if_pos hident] at heq
          by_cases heqv : (peekTok ((eatTok st).2)).map Tok.v = some "="
          case neg =>
            simp only [if_pos heqv] at heq
            exact ih _ _ _ _ heq hinv
          case pos =>
            simp only [if_neg (not_not_intro heqv)] at heq
            by_cases hbl : (peekTok ((eatTok ((eatTok st).2)).2)).map Tok.v = some "\x7b"
            case neg =>
              simp only [if_pos hbl] at heq
              exact ih _ _ _ _ heq hinv
            case pos =>
              simp only [if_neg (not_not_intro hbl)] at heq
              split at heq
              · simp at heq
              · exact ih _ _ _ _ heq (pushCollect_inv _ _ _ _ hinv)
        case neg =>
          simp only [if_neg hident] at heq
          by_cases hbr : t.v = "["
          case neg =>
            simp only [if_neg hbr] at heq
            exact ih _ _ _ _ heq hinv
          case pos =>
            simp only [if_pos hbr] at heq
            by_cases heqv : (peekTok ((expectTok "]"
                ((scanSelString ((eatTok st).2)).2)).2)).map Tok.v = some "="
            case neg =>
              simp only [if_pos heqv] at heq
              exact ih _ _ _ _ heq hinv
            case pos =>
              simp only [if_neg (not_not_intro heqv)] at heq
              by_cases hbl : (peekTok ((eatTok ((expectTok "]"
                  ((scanSelString ((eatTok st).2)).2)).2)).2)).map Tok.v = some "\x7b"
              case neg =>
                simp only [if_pos hbl] at heq
                exact ih _ _ _ _ heq hinv
              case pos =>
                simp only [if_neg (not_not_intro hbl)] at heq
                split at heq
                · simp at heq
                · exact ih _ _ _ _ heq (pushCollect_inv _ _ _ _ hinv)

/-- C10: every rule in the final flat rule list has a non-empty
declaration sequence — both the top-level driver and the child collector
push a rule only when its declarations are non-empty — so the emitted
stylesheet never contains an empty rule block. -/
theorem flat_rules_props_nonempty (src : String) :
    ∀ r ∈ parsedRules src, r.props ≠ [] := by
  intro r hr
  unfold parsedRules at hr
  cases hpr : parseResult src with
  | none => rw [hpr] at hr; simp at hr
  | some pr =>
    rw [hpr] at hr
    obtain ⟨out, stf⟩ := pr
    exact parseTopF_props_ne _ _ _ _ _ hpr (by simp) r hr

/-- C10 (witness): the single rule compiled from `a = { b = 1 }` has a
non-empty declaration list. -/
theorem flat_rules_props_nonempty_witness :
    (⟨"a", [⟨"b", "1"⟩]⟩ : FlatRule).props ≠ [] :=
  flat_rules_props_nonempty "a = \x7b b = 1 \x7d" ⟨"a", [⟨"b", "1"⟩]⟩ (by decide)
